import Mathlib

/-!
# Verification of the Confluence → BookStack migration core (`migrate.py`)

This file is a shallow embedding, in Lean 4, of the Hierarchical Content
Migration & Reconciliation Engine implemented by `sync_confluence_pages` in
`migrate.py`, together with its leaf components:

* the adaptive rate-limit backoff (`_rate_limit_delay`, `handle_rate_limit`),
* the macro transcoder (`_convert_confluence_macros_to_html`),
* the tree classifier (the `pages_with_children` / `top_level_pages` logic),
* the duplicate-book reconciler (the merge-and-delete passes),
* the entity-mapping processing loop (chapters, Introduction pages, leaves).

Modelling conventions:

* Confluence/BookStack ids are `Nat`.  The code stores both `str` and `int`
  variants of ids in `chapter_map` purely as a normalisation workaround;
  the model uses a single `Nat` key.
* Python floats in the backoff are modelled as rationals (`ℚ`).
* Every destination write consults an oracle `ok : Nat → Bool` indexed by a
  running operation counter; `ok i = false` models an HTTP failure of the
  i-th write (after the single built-in retry of the code).  Failure of the
  follow-up `update_bookstack_page` call only affects logging in the code,
  so updates are modelled as plain state transitions.
* The BeautifulSoup rewriting inside the macro transcoder is foreign code;
  it is modelled by an arbitrary parameter `soupTransform`, with `none`
  standing for the `except` branch (which returns the original input).
* The model covers the shelf-mode, non-dry-run path of
  `sync_confluence_pages` (the path the cited spec sentences describe), with
  `user_map` empty: the owner-assignment block only adds an owner field to
  writes and never changes which entities are created.
-/

/-! ## Adaptive rate limiting (`migrate.py` lines 55-74)

`_rate_limit_delay` starts at 0.1 and `handle_rate_limit` sets it to
`min(_rate_limit_delay * 1.5, _max_rate_limit_delay)` with cap 1.0.
`reset_rate_limit` exists in the file but has no call site anywhere in the
repository, so a run's delay is only ever touched by `handle_rate_limit`
(on a rate-limited response) or left alone. -/

def initialRateLimitDelay : ℚ := 1/10

def maxRateLimitDelay : ℚ := 1

/-- One `handle_rate_limit` call: `_rate_limit_delay = min(_rate_limit_delay * 1.5, _max_rate_limit_delay)`. -/
def nextDelay (d : ℚ) : ℚ := min (d * (3/2)) maxRateLimitDelay

/-- The delay after a run whose paced calls answered with the given list of
responses (`true` = rate-limited, handled by `handle_rate_limit`;
`false` = anything else, which leaves the delay untouched). -/
def runDelay (d0 : ℚ) (evs : List Bool) : ℚ :=
  evs.foldl (fun d e => if e then nextDelay d else d) d0

/-! ## Macro transcoder (`_convert_confluence_macros_to_html`, lines 684-738) -/

/-- `listPref pat text`: `pat` is an initial segment of `text`. -/
def listPref : List Char → List Char → Bool
  | [], _ => true
  | _ :: _, [] => false
  | p :: ps, c :: cs => p == c && listPref ps cs

/-- `listSub pat text`: `pat` occurs contiguously inside `text`
(the semantics of Python's `pat in text` on strings). -/
def listSub : List Char → List Char → Bool
  | pat, [] => listPref pat []
  | pat, c :: cs => listPref pat (c :: cs) || listSub pat cs

/-- Python's substring test `pat in s`. -/
def strIn (pat s : String) : Bool := listSub pat.toList s.toList

def codeMacroMarker : String := "ac:structured-macro"

def codeMacroName : String := "ac:name=\"code\""

/-- Shallow embedding of `_convert_confluence_macros_to_html`.

The code returns its input unchanged when the input is falsy, when it does
not contain both detection substrings, or when BeautifulSoup is missing;
otherwise it parses and rewrites code macros inside a `try` whose `except`
branch returns the original input.  The foreign BeautifulSoup rewriting is
the parameter `soupTransform`; `soupTransform html = none` models the
`except` branch (any parse error). -/
def convertConfluenceMacrosToHtml (bsAvailable : Bool)
    (soupTransform : String → Option String) (html : String) : String :=
  if html == "" then html
  else if !(strIn codeMacroMarker html && strIn codeMacroName html) then html
  else if !bsAvailable then html
  else
    match soupTransform html with
    | some out => out
    | none => html

/-! ## Tree classifier (`sync_confluence_pages`, lines 1920-1954 and 2418-2433) -/

structure Ancestor where
  id : Nat
  title : String
deriving DecidableEq, Repr

/-- One Confluence content node as consumed by the sync: stable id, title,
ordered ancestor chain (root first), and raw storage body. -/
structure SourceNode where
  id : Nat
  title : String
  ancestors : List Ancestor
  body : String
deriving DecidableEq, Repr

def SourceNode.depth (p : SourceNode) : Nat := p.ancestors.length

/-- The id of the immediate parent: the last entry of the ancestor chain
(`other_ancestors[-1]['id']` in the code). -/
def lastAncestorId (p : SourceNode) : Option Nat := p.ancestors.getLast?.map (·.id)

/-- `page_id in pages_with_children`: some node of the list has this id as
the last element of its ancestor chain (lines 1924-1935 / 2420-2431). -/
def hasChildren (pages : List SourceNode) (pid : Nat) : Bool :=
  pages.any (fun q => lastAncestorId q == some pid)

/-- The book classification of lines 1942-1948: a node joins
`top_level_pages` iff it has at most 2 ancestors and has children. -/
def isBookRoot (pages : List SourceNode) (p : SourceNode) : Bool :=
  decide (p.depth ≤ 2) && hasChildren pages p.id

def topLevelPages (pages : List SourceNode) : List SourceNode :=
  pages.filter (fun p => isBookRoot pages p)

/-- `Descendant pages q p`: `q` is reachable from `p` by following the
immediate-parent relation induced by the nodes' ancestor chains (each step
`q → r` means `q`'s chain ends in `r.id` and `q` is a fetched node). -/
inductive Descendant (pages : List SourceNode) : SourceNode → SourceNode → Prop where
  | child (q p : SourceNode) (hq : q ∈ pages) (h : lastAncestorId q = some p.id) :
      Descendant pages q p
  | step (q r p : SourceNode) (hq : q ∈ pages) (h : lastAncestorId q = some r.id)
      (hr : Descendant pages r p) : Descendant pages q p

/-! ## Destination (BookStack) state and write primitives

BookStack entities as the sync observes them through the CRUD wrappers.
Every mutating call consults the oracle `ok` at the current operation
counter: `false` models a non-2xx answer (after the code's single built-in
retry), upon which the wrapper returns `None`/`False` and the sync
continues. -/

structure Book where
  id : Nat
  name : String
deriving DecidableEq, Repr

structure Chapter where
  id : Nat
  name : String
  description : String
  bookId : Nat
deriving DecidableEq, Repr

structure Page where
  id : Nat
  name : String
  bookId : Nat
  chapterId : Option Nat
  html : String
deriving DecidableEq, Repr

structure Dest where
  books : List Book
  chapters : List Chapter
  pages : List Page
  shelf : List Nat
  nextId : Nat
  opIndex : Nat
deriving DecidableEq, Repr

def emptyDest : Dest := ⟨[], [], [], [], 1, 0⟩

/-- `create_bookstack_book` (without a shelf id, as the sync calls it). -/
def createBook (ok : Nat → Bool) (d : Dest) (name : String) : Option Nat × Dest :=
  if ok d.opIndex then
    (some d.nextId,
     { d with books := d.books ++ [⟨d.nextId, name⟩],
              nextId := d.nextId + 1, opIndex := d.opIndex + 1 })
  else (none, { d with opIndex := d.opIndex + 1 })

/-- `create_bookstack_chapter`. -/
def createChapter (ok : Nat → Bool) (d : Dest) (name description : String)
    (bookId : Nat) : Option Nat × Dest :=
  if ok d.opIndex then
    (some d.nextId,
     { d with chapters := d.chapters ++ [⟨d.nextId, name, description, bookId⟩],
              nextId := d.nextId + 1, opIndex := d.opIndex + 1 })
  else (none, { d with opIndex := d.opIndex + 1 })

/-- `create_bookstack_page`. -/
def createPage (ok : Nat → Bool) (d : Dest) (name html : String) (bookId : Nat)
    (chapterId : Option Nat) : Option Nat × Dest :=
  if ok d.opIndex then
    (some d.nextId,
     { d with pages := d.pages ++ [⟨d.nextId, name, bookId, chapterId, html⟩],
              nextId := d.nextId + 1, opIndex := d.opIndex + 1 })
  else (none, { d with opIndex := d.opIndex + 1 })

/-- `update_bookstack_page page_id chapter_id=c`: re-asserts the chapter of
an existing page (the BookStack-quirk follow-up call).  Its failure only
affects logging in the code, so it is modelled as a plain transition. -/
def updatePageChapter (d : Dest) (pid : Nat) (chapterId : Option Nat) : Dest :=
  { d with pages := d.pages.map (fun p =>
      if p.id == pid then { p with chapterId := chapterId } else p) }

/-- Deleting a book removes it and the contents listed under it. -/
def deleteBook (ok : Nat → Bool) (d : Dest) (bid : Nat) : Dest :=
  if ok d.opIndex then
    { d with books := d.books.filter (fun b => !(b.id == bid)),
             chapters := d.chapters.filter (fun c => !(c.bookId == bid)),
             pages := d.pages.filter (fun p => !(p.bookId == bid)),
             opIndex := d.opIndex + 1 }
  else { d with opIndex := d.opIndex + 1 }

def deleteBooks (ok : Nat → Bool) (d : Dest) (ids : List Nat) : Dest :=
  ids.foldl (deleteBook ok) d

/-! ### Python-dict helpers (insertion-ordered associative lists) -/

def dictPut {κ ν : Type} [BEq κ] (m : List (κ × ν)) (k : κ) (v : ν) : List (κ × ν) :=
  if m.any (fun e => e.1 == k) then m.map (fun e => if e.1 == k then (k, v) else e)
  else m ++ [(k, v)]

def dictGet {κ ν : Type} [BEq κ] (m : List (κ × ν)) (k : κ) : Option ν :=
  (m.find? (fun e => e.1 == k)).map (·.2)

def dictMem {κ ν : Type} [BEq κ] (m : List (κ × ν)) (k : κ) : Bool :=
  m.any (fun e => e.1 == k)

/-- First-occurrence deduplication: the iteration order of a Python dict
keyed in list order. -/
def dedupFirst {α : Type} [BEq α] (l : List α) : List α :=
  l.foldl (fun acc x => if acc.any (fun y => y == x) then acc else acc ++ [x]) []

/-- Insert `x` after every already-placed element that may precede it. -/
def stableInsert {α : Type} (le : α → α → Bool) (x : α) : List α → List α
  | [] => [x]
  | y :: ys => if le y x then y :: stableInsert le x ys else x :: y :: ys

/-- A stable sort (insertion from the left).  For a total preorder
comparator, stability makes the output of any two stable sorts identical,
so this is extensionally Python's `list.sort`. -/
def stableSort {α : Type} (le : α → α → Bool) (l : List α) : List α :=
  l.foldl (fun acc x => stableInsert le x acc) []

/-- Python's `str.lower()` (`String.toLower`, made kernel-computable). -/
def lowerStr (s : String) : String := String.mk (s.data.map Char.toLower)

/-- Python's `s.strip() == ''`: every character is whitespace. -/
def isBlankStr (s : String) : Bool := s.data.all Char.isWhitespace

/-! ## Duplicate reconciler (lines 1958-2074 and 2144-2264) -/

def pageCount (d : Dest) (b : Nat) : Nat :=
  (d.pages.filter (fun p => p.bookId == b)).length

def chapterCount (d : Dest) (b : Nat) : Nat :=
  (d.chapters.filter (fun c => c.bookId == b)).length

/-- `total_content = page_count + chapter_count` of a candidate book. -/
def contentCount (d : Dest) (b : Nat) : Nat := pageCount d b + chapterCount d b

/-- The comparator realised by `book_page_counts.sort(key=lambda x: (-x[1], x[0]))`:
descending content count, ascending id as tie-break. -/
def bookLe (d : Dest) (a b : Book) : Bool :=
  decide (contentCount d b.id < contentCount d a.id) ||
    (contentCount d a.id == contentCount d b.id && decide (a.id ≤ b.id))

/-- One chapter copy into the survivor (lines 2007-2021). -/
def copyChapterStep (ok : Nat → Bool) (target : Nat)
    (st : Dest × List (Nat × Nat)) (c : Chapter) : Dest × List (Nat × Nat) :=
  let r := createChapter ok st.1 c.name c.description target
  match r.1 with
  | some cid => (r.2, dictPut st.2 c.id cid)
  | none => (r.2, st.2)

/-- Copy every chapter of a loser book into the survivor, recording the
old → new chapter-id map (lines 2006-2021). -/
def copyChapters (ok : Nat → Bool) (d : Dest) (chs : List Chapter) (target : Nat) :
    Dest × List (Nat × Nat) :=
  chs.foldl (copyChapterStep ok target) (d, [])

/-- One page copy into the survivor (lines 2025-2044). -/
def copyPageStep (ok : Nat → Bool) (target : Nat) (chMap : List (Nat × Nat))
    (st : Dest) (p : Page) : Dest :=
  let newCh : Option Nat :=
    match p.chapterId with
    | some oc => dictGet chMap oc
    | none => none
  let r := createPage ok st p.name p.html target newCh
  match r.1 with
  | some pid =>
    match newCh with
    | some c => updatePageChapter r.2 pid (some c)
    | none => r.2
  | none => r.2

/-- Copy every page of a loser book into the survivor, resolving its chapter
through the chapter-id map (lines 2023-2044). -/
def copyPages (ok : Nat → Bool) (d : Dest) (pgs : List Page) (target : Nat)
    (chMap : List (Nat × Nat)) : Dest :=
  pgs.foldl (copyPageStep ok target chMap) d

/-- Merge one loser book into the survivor (lines 1996-2046): fetch its
pages and chapters, copy chapters first, then pages. -/
def copyLoser (ok : Nat → Bool) (d : Dest) (target loser : Nat) : Dest :=
  let pgs := d.pages.filter (fun p => p.bookId == loser)
  let chs := d.chapters.filter (fun c => c.bookId == loser)
  let r := copyChapters ok d chs target
  copyPages ok r.1 pgs target r.2

/-- Process one same-named candidate group (lines 1971-2052): skip groups of
size ≤ 1; otherwise sort by (descending count, ascending id), keep the
first, copy every other candidate into it.  Returns the new state, the ids
marked for deletion, and the book the name cache retains for this name. -/
def mergeGroup (ok : Nat → Bool) (d : Dest) (g : List Book) :
    Dest × List Nat × Option Book :=
  if g.length ≤ 1 then (d, [], g.head?)
  else
    match stableSort (bookLe d) g with
    | [] => (d, [], none)
    | keep :: losers =>
      (losers.foldl (fun acc b => copyLoser ok acc keep.id b.id) d,
       losers.map (·.id), some keep)

/-- Process one name of pass 1: merge its candidate group, extend the
to-delete list, extend the name cache with the kept book. -/
def reconcileStep (ok : Nat → Bool) (d0 : Dest)
    (st : Dest × List Nat × List (String × Book)) (n : String) :
    Dest × List Nat × List (String × Book) :=
  let g := d0.books.filter (fun b => b.name == n)
  let m := mergeGroup ok st.1 g
  (m.1, st.2.1 ++ m.2.1,
   match m.2.2 with
   | some b => st.2.2 ++ [(n, b)]
   | none => st.2.2)

/-- Reconciliation pass 1 (lines 1958-2074): group the fetched books by
name, merge every group, then delete all losers; also returns the
name → single book cache the sync keeps (`existing_books_by_name`). -/
def reconcileBooks (ok : Nat → Bool) (d0 : Dest) : Dest × List (String × Book) :=
  let names := dedupFirst (d0.books.map (·.name))
  let r := names.foldl (reconcileStep ok d0) (d0, [], [])
  (deleteBooks ok r.1 r.2.1, r.2.2)

/-! ## Reconciliation pass 2 with identity-map repair (lines 2144-2264) -/

def natMem (l : List Nat) (x : Nat) : Bool := l.any (fun y => y == x)

def addIfMissing (l : List Nat) (x : Nat) : List Nat :=
  if natMem l x then l else l ++ [x]

/-- Rewriting every `page_to_book_map` value equal to a merged loser id to
the survivor id (lines 2236-2239). -/
def retargetMap (m : List (Nat × Nat)) (old new : Nat) : List (Nat × Nat) :=
  m.map (fun e => if e.2 == old then (e.1, new) else e)

/-- Shelf-membership repair (lines 2241-2245): drop the loser, make sure the
survivor is present. -/
def shelfRepair (s : List Nat) (old new : Nat) : List Nat :=
  if natMem s old then addIfMissing (s.erase old) new else s

structure Pass2State where
  dest : Dest
  bookMap : List (Nat × Nat)
  shelf : List Nat
  toDelete : List Nat
deriving Repr

/-- One same-named group of the post-creation reconciliation (lines
2158-2245): identical merge logic, plus per-loser repair of the book map and
the shelf list. -/
def mergeGroup2 (ok : Nat → Bool) (st : Pass2State) (g : List Book) : Pass2State :=
  if g.length ≤ 1 then st
  else
    match stableSort (bookLe st.dest) g with
    | [] => st
    | keep :: losers =>
      losers.foldl (fun acc b =>
        { dest := copyLoser ok acc.dest keep.id b.id,
          bookMap := retargetMap acc.bookMap b.id keep.id,
          shelf := shelfRepair acc.shelf b.id keep.id,
          toDelete := acc.toDelete ++ [b.id] }) st

/-- Process one name of pass 2. -/
def reconcileStep2 (ok : Nat → Bool) (dStart : Dest) (st : Pass2State)
    (n : String) : Pass2State :=
  mergeGroup2 ok st (dStart.books.filter (fun b => b.name == n))

/-- Reconciliation pass 2 (lines 2144-2264): books are re-fetched once, each
same-named group is merged, maps are repaired, and all losers are deleted at
the end. -/
def reconcileBooksAfterCreate (ok : Nat → Bool) (d : Dest)
    (bookMap : List (Nat × Nat)) (shelf : List Nat) :
    Dest × List (Nat × Nat) × List Nat :=
  let names := dedupFirst (d.books.map (·.name))
  let r := names.foldl (reconcileStep2 ok d) ⟨d, bookMap, shelf, []⟩
  (deleteBooks ok r.dest r.toDelete, r.bookMap, r.shelf)

/-! ## Phantom ancestors (lines 1885-1914) -/

def pageListHasId (pages : List SourceNode) (i : Nat) : Bool :=
  pages.any (fun p => p.id == i)

/-- Ancestors referenced by `p` but absent from the fetched list are
materialized as minimal nodes whose chain is the referencing chain truncated
before the entry (`ancestors[:ancestors.index(ancestor)]`), with an empty
body (the synthesized dict has no `body` key). -/
def phantomsFromPage (inMain : Nat → Bool) (p : SourceNode)
    (acc : List SourceNode) : List SourceNode :=
  p.ancestors.foldl (fun acc a =>
    if inMain a.id then acc
    else if acc.any (fun q => q.id == a.id) then acc
    else acc ++ [⟨a.id, a.title, p.ancestors.takeWhile (fun b => !(b == a)), ""⟩]) acc

def addPhantoms (pages : List SourceNode) : List SourceNode :=
  pages ++ pages.foldl (fun acc p => phantomsFromPage (pageListHasId pages) p acc) []

/-- `confluence_pages_map[i]`: a Python dict comprehension keyed by id, so a
later node with the same id wins. -/
def pageById (pages : List SourceNode) (i : Nat) : Option SourceNode :=
  pages.foldl (fun acc p => if p.id == i then some p else acc) none

/-! ## Mapping every node to its book (lines 2101-2141 and 2326-2370) -/

structure BookPhaseState where
  dest : Dest
  cache : List (String × Book)
  shelf : List Nat
  bookMap : List (Nat × Nat)
deriving Repr

/-- `ensure all kept books (after merging) are in shelf` (lines 2092-2099). -/
def ensureKeptInShelf (cache : List (String × Book)) (shelf : List Nat) : List Nat :=
  cache.foldl (fun s e => addIfMissing s e.2.id) shelf

/-- One iteration of the book-creation loop (lines 2102-2141): reuse an
existing book by exact name from the run cache, else create one; record the
source-id → book-id mapping and shelf membership. -/
def createBooksStep (ok : Nat → Bool) (st : BookPhaseState) (t : SourceNode) :
    BookPhaseState :=
  match dictGet st.cache t.title with
  | some b =>
    { st with bookMap := dictPut st.bookMap t.id b.id,
              shelf := addIfMissing st.shelf b.id }
  | none =>
    let r := createBook ok st.dest t.title
    match r.1 with
    | some bid =>
      { dest := r.2, bookMap := dictPut st.bookMap t.id bid,
        cache := dictPut st.cache t.title ⟨bid, t.title⟩,
        shelf := addIfMissing st.shelf bid }
    | none => { st with dest := r.2 }

def createBooksPhase (ok : Nat → Bool) (st : BookPhaseState)
    (tops : List SourceNode) : BookPhaseState :=
  tops.foldl (createBooksStep ok) st

/-- Walk the reversed ancestor chain; the first ancestor that is a book page
AND already has a mapping wins (the `break` sits inside the inner test, so
an unmapped book ancestor is skipped and the walk continues). -/
def findBookFromAncestors (bookIds : List Nat) (bookMap : List (Nat × Nat)) :
    List Ancestor → Option Nat
  | [] => none
  | a :: rest =>
    if natMem bookIds a.id then
      match dictGet bookMap a.id with
      | some b => some b
      | none => findBookFromAncestors bookIds bookMap rest
    else findBookFromAncestors bookIds bookMap rest

/-- The fallback walk from the root ancestor upward (lines 2354-2368).  The
code's `while` loop never terminates on a cyclic ancestor chain (documented
precondition violation); the fuel bounds the walk on acyclic data, where at
most `pages.length` distinct hops are possible. -/
def rootWalk (pages : List SourceNode) (bookIds : List Nat)
    (bookMap : List (Nat × Nat)) : Nat → Nat → Option Nat
  | 0, _ => none
  | fuel + 1, cur =>
    match pageById pages cur with
    | none => none
    | some cp =>
      if natMem bookIds cur && dictMem bookMap cur then dictGet bookMap cur
      else
        match cp.ancestors.head? with
        | none => none
        | some a => rootWalk pages bookIds bookMap fuel a.id

/-- Lines 2332-2368 for one node. -/
def mapNodeToBook (pages : List SourceNode) (bookIds : List Nat)
    (m : List (Nat × Nat)) (p : SourceNode) : List (Nat × Nat) :=
  if natMem bookIds p.id then m
  else
    match findBookFromAncestors bookIds m p.ancestors.reverse with
    | some b => dictPut m p.id b
    | none =>
      match p.ancestors.head? with
      | none => m
      | some a =>
        match rootWalk pages bookIds m (pages.length + 1) a.id with
        | some b => dictPut m p.id b
        | none => m

def mapPagesToBooks (pages : List SourceNode) (bookIds : List Nat)
    (m0 : List (Nat × Nat)) : List (Nat × Nat) :=
  pages.foldl (mapNodeToBook pages bookIds) m0

/-! ## Caches for the processing loop (lines 2372-2433) -/

/-- `all_books`: the fetched books carry no `shelf_id` field, so the
comprehension filtering on it contributes nothing and the list is exactly
the distinct mapped book ids (lines 2376-2379; `set()` there only dedups —
only membership in the caches below is observable). -/
def allMappedBooks (bookMap : List (Nat × Nat)) : List Nat :=
  dedupFirst (bookMap.map (·.2))

/-- `existing_by_confluence_id`: pages of the mapped books keyed by name,
later entries overwriting earlier ones (lines 2381-2392). -/
def buildExistingPages (d : Dest) (bookIds : List Nat) : List (String × Nat) :=
  ((bookIds.map (fun b => d.pages.filter (fun p => p.bookId == b))).flatten).foldl
    (fun m p => dictPut m p.name p.id) []

/-- `existing_chapter_names`: every chapter of every mapped book, keyed by
lower-cased name, across ALL books (lines 2396-2407). -/
def buildExistingChapters (d : Dest) (bookIds : List Nat) : List (String × Nat) :=
  ((bookIds.map (fun b => d.chapters.filter (fun c => c.bookId == b))).flatten).foldl
    (fun m c => dictPut m (lowerStr c.name) c.id) []

/-- `pages_with_children` as an id list (lines 2418-2433). -/
def childIdsOf (pages : List SourceNode) : List Nat :=
  (pages.filter (fun p => hasChildren pages p.id)).map (·.id)

/-- `sorted_pages = sorted(confluence_pages, key=get_depth)` — Python's sort
is stable, as is `mergeSort`. -/
def sortByDepth (pages : List SourceNode) : List SourceNode :=
  stableSort (fun a b => decide (a.ancestors.length ≤ b.ancestors.length)) pages

/-! ## The processing loop (lines 2449-2706) -/

structure LoopState where
  dest : Dest
  chapterMap : List (Nat × Nat)
  pageMap : List (Nat × Nat)
  existingPages : List (String × Nat)
  existingChapters : List (String × Nat)
  created : Nat
  updated : Nat
  skipped : Nat
  errors : Nat
deriving Repr

/-- Walking ancestors from the immediate parent outward for the nearest
ancestor that became a chapter (lines 2534-2559); called on the reversed
chain.  The code's str/int double bookkeeping of `chapter_map` keys is a
normalisation workaround collapsed by `Nat` keys. -/
def findParentChapter (chapterMap : List (Nat × Nat)) : List Ancestor → Option Nat
  | [] => none
  | a :: rest =>
    match dictGet chapterMap a.id with
    | some c => some c
    | none => findParentChapter chapterMap rest

/-- The chapter name a container node will be created with (lines
2567-2587): on a case-insensitive collision against the run-wide chapter
cache, prefix the immediate parent's title, falling back to `Chapter - `. -/
def chapterNameFor (allPages : List SourceNode)
    (existingChapters : List (String × Nat)) (p : SourceNode) : String :=
  if dictMem existingChapters (lowerStr p.title) then
    match p.ancestors.getLast? with
    | some pa =>
      match pageById allPages pa.id with
      | some pp => pp.title ++ " - " ++ p.title
      | none => "Chapter - " ++ p.title
    | none => "Chapter - " ++ p.title
  else p.title

/-- Lines 2464-2471: the transcoded body, with `<p></p>` substituted for an
empty result (`convert_atlassian_storage_to_html` dispatches straight to
`_convert_confluence_macros_to_html` for string storage). -/
def htmlContentFor (bs : Bool) (tr : String → Option String) (p : SourceNode) :
    String :=
  let h := convertConfluenceMacrosToHtml bs tr p.body
  if isBlankStr h then "<p></p>" else h

/-- The body of one processing-loop iteration after the skip-existing check
(lines 2464-2706).  `user_map` is empty, so `owner_id` is `None` throughout
and the owner-only update calls disappear. -/
def processNodeCore (ok : Nat → Bool) (bs : Bool) (tr : String → Option String)
    (allPages : List SourceNode) (childIds : List Nat)
    (bookMap : List (Nat × Nat)) (st : LoopState) (p : SourceNode) : LoopState :=
  let html := htmlContentFor bs tr p
  match dictGet bookMap p.id with
  | none => { st with errors := st.errors + 1 }
  | some targetBook =>
    let parentChapter := findParentChapter st.chapterMap p.ancestors.reverse
    if natMem childIds p.id then
      -- container node: create a chapter plus an Introduction page
      let cname := chapterNameFor allPages st.existingChapters p
      let r := createChapter ok st.dest cname "" targetBook
      match r.1 with
      | some cid =>
        let st1 := { st with
          dest := r.2,
          chapterMap := dictPut st.chapterMap p.id cid,
          existingChapters := dictPut st.existingChapters (lowerStr cname) cid }
        let ri := createPage ok st1.dest "Introduction" html targetBook (some cid)
        let st2 :=
          match ri.1 with
          | some ipid =>
            { st1 with dest := updatePageChapter ri.2 ipid (some cid),
                       pageMap := dictPut st1.pageMap p.id ipid }
          | none => { st1 with dest := ri.2 }
        { st2 with created := st2.created + 1 }
      | none => { st with dest := r.2, errors := st.errors + 1 }
    else
      -- leaf node: create the page under the nearest ancestor chapter
      let r := createPage ok st.dest p.title html targetBook parentChapter
      match r.1 with
      | some pgid =>
        let d2 :=
          match parentChapter with
          | some c => updatePageChapter r.2 pgid (some c)
          | none => r.2
        { st with dest := d2, created := st.created + 1,
                  pageMap := dictPut st.pageMap p.id pgid,
                  existingPages := dictPut st.existingPages p.title pgid }
      | none => { st with dest := r.2, errors := st.errors + 1 }

/-- One full iteration (lines 2449-2706) including the skip-existing test
(lines 2455-2462). -/
def processNode (ok : Nat → Bool) (bs : Bool) (tr : String → Option String)
    (skipExisting : Bool) (allPages : List SourceNode) (childIds : List Nat)
    (bookMap : List (Nat × Nat)) (st : LoopState) (p : SourceNode) : LoopState :=
  match dictGet st.existingPages p.title with
  | some epid =>
    if skipExisting then
      { st with skipped := st.skipped + 1, pageMap := dictPut st.pageMap p.id epid }
    else processNodeCore ok bs tr allPages childIds bookMap st p
  | none => processNodeCore ok bs tr allPages childIds bookMap st p

/-! ## The orchestrator (`sync_confluence_pages`, shelf mode, non-dry-run) -/

/-- The orchestrator states, named as in the spec (the spec's two mapping
states appear alongside `mapNodes`, the single interleaved mapping pass the
code actually performs). -/
inductive Phase where
  | fetch
  | classifyBooks
  | createBooks
  | reconcileBooksPass1
  | attachShelf
  | reconcileBooksPass2
  | mapContainers
  | mapLeaves
  | mapNodes
  | summarize
deriving DecidableEq, Repr

structure RunResult where
  dest : Dest
  bookMap : List (Nat × Nat)
  chapterMap : List (Nat × Nat)
  pageMap : List (Nat × Nat)
  created : Nat
  updated : Nat
  skipped : Nat
  errors : Nat
  totalProcessed : Nat
  trace : List Phase
deriving Repr

/-- The end-to-end shelf-mode sync pass of `sync_confluence_pages`, from the
node list a fetch produced.  Each phase appends its marker to the trace at
the position the corresponding block occupies in the source. -/
def runSync (ok : Nat → Bool) (bs : Bool) (tr : String → Option String)
    (skipExisting : Bool) (src : List SourceNode) (d0 : Dest) : RunResult :=
  -- fetch (lines 1845-1861) is the external read-only collaborator; its
  -- result is `src`
  let t0 : List Phase := [Phase.fetch]
  -- phantom synthesis + book classification (lines 1885-1954)
  let pages := addPhantoms src
  let tops := topLevelPages pages
  let bookIds := tops.map (·.id)
  let t1 := t0 ++ [Phase.classifyBooks]
  -- duplicate merge over the pre-existing books (lines 1958-2074)
  let r1 := reconcileBooks ok d0
  let t2 := t1 ++ [Phase.reconcileBooksPass1]
  -- shelf fetch and kept-book membership (lines 2076-2099)
  let shelf0 := ensureKeptInShelf r1.2 r1.1.shelf
  -- book creation (lines 2101-2141)
  let bp := createBooksPhase ok ⟨r1.1, r1.2, shelf0, []⟩ tops
  let t3 := t2 ++ [Phase.createBooks]
  -- duplicate merge over the just-created books, with map repair
  -- (lines 2144-2264)
  let r2 := reconcileBooksAfterCreate ok bp.dest bp.bookMap bp.shelf
  let t4 := t3 ++ [Phase.reconcileBooksPass2]
  -- the one shelf update PUT (lines 2266-2324)
  let d3 := { r2.1 with shelf := r2.2.2 }
  let t5 := t4 ++ [Phase.attachShelf]
  -- book mapping for the remaining nodes and the loop caches
  -- (lines 2326-2433)
  let bookMap := mapPagesToBooks pages bookIds r2.2.1
  let mappedBooks := allMappedBooks bookMap
  let existingPages := buildExistingPages d3 mappedBooks
  let existingChapters := buildExistingChapters d3 mappedBooks
  let childIds := childIdsOf pages
  -- the single depth-ordered processing loop over containers and leaves
  -- (lines 2440-2706)
  let sorted := sortByDepth pages
  let final := sorted.foldl
    (processNode ok bs tr skipExisting pages childIds bookMap)
    ⟨d3, [], [], existingPages, existingChapters, 0, 0, 0, 0⟩
  let t6 := t5 ++ [Phase.mapNodes]
  -- summary (lines 2708-2716): unconditional
  let t7 := t6 ++ [Phase.summarize]
  { dest := final.dest, bookMap := bookMap, chapterMap := final.chapterMap,
    pageMap := final.pageMap, created := final.created,
    updated := final.updated, skipped := final.skipped,
    errors := final.errors, totalProcessed := pages.length, trace := t7 }

/-- The book-producing prefix of the sync (reconcile pass 1, shelf prep,
book creation, reconcile pass 2) — the only phases that touch the book
list. -/
def bookPipeline (ok : Nat → Bool) (src : List SourceNode) (d0 : Dest) : Dest :=
  let r1 := reconcileBooks ok d0
  let bp := createBooksPhase ok
    ⟨r1.1, r1.2, ensureKeptInShelf r1.2 r1.1.shelf, []⟩
    (topLevelPages (addPhantoms src))
  (reconcileBooksAfterCreate ok bp.dest bp.bookMap bp.shelf).1

/-- All destination writes succeed. -/
def allOk : Nat → Bool := fun _ => true

/-- Total number of destination entities. -/
def totalEntities (d : Dest) : Nat :=
  d.books.length + d.chapters.length + d.pages.length

/-- The state-sequence §4.6 of the spec claims. -/
def specClaimedTrace : List Phase :=
  [Phase.fetch, Phase.classifyBooks, Phase.createBooks,
   Phase.reconcileBooksPass1, Phase.attachShelf, Phase.reconcileBooksPass2,
   Phase.mapContainers, Phase.mapLeaves, Phase.summarize]

/-- The trace the code performs. -/
def codeTrace : List Phase :=
  [Phase.fetch, Phase.classifyBooks, Phase.reconcileBooksPass1,
   Phase.createBooks, Phase.reconcileBooksPass2, Phase.attachShelf,
   Phase.mapNodes, Phase.summarize]

/-! ## Concrete inputs used by witnesses and counterexamples -/

def c5Pages : List SourceNode :=
  [⟨1, "A", [], ""⟩, ⟨2, "B", [⟨1, "A"⟩], ""⟩]


def c1Src : List SourceNode := [⟨1, "A", [], ""⟩, ⟨2, "B", [⟨1, "A"⟩], ""⟩]

def c1FirstRun : RunResult := runSync allOk true (fun _ => none) true c1Src emptyDest

def c1SecondRun : RunResult :=
  runSync allOk true (fun _ => none) true c1Src c1FirstRun.dest

def c3Src : List SourceNode :=
  [⟨1, "A", [], ""⟩, ⟨2, "B", [⟨1, "A"⟩], ""⟩,
   ⟨3, "C", [⟨1, "A"⟩, ⟨2, "B"⟩], ""⟩]

def c3Run : RunResult := runSync allOk true (fun _ => none) true c3Src emptyDest

def c7Src : List SourceNode :=
  [⟨1, "A", [], ""⟩,
   ⟨2, "B", [⟨1, "A"⟩], ""⟩,
   ⟨3, "C", [⟨1, "A"⟩, ⟨2, "B"⟩], ""⟩,
   ⟨4, "Dup", [⟨1, "A"⟩, ⟨2, "B"⟩, ⟨3, "C"⟩], ""⟩,
   ⟨5, "L1", [⟨1, "A"⟩, ⟨2, "B"⟩, ⟨3, "C"⟩, ⟨4, "Dup"⟩], ""⟩,
   ⟨6, "P", [⟨1, "A"⟩, ⟨2, "B"⟩], ""⟩,
   ⟨7, "Dup", [⟨1, "A"⟩, ⟨2, "B"⟩, ⟨6, "P"⟩], ""⟩,
   ⟨8, "L2", [⟨1, "A"⟩, ⟨2, "B"⟩, ⟨6, "P"⟩, ⟨7, "Dup"⟩], ""⟩]

def c7Run : RunResult := runSync allOk true (fun _ => none) true c7Src emptyDest

def dupWorkspace : Dest :=
  { books := [⟨1, "X"⟩, ⟨2, "X"⟩, ⟨3, "Y"⟩],
    chapters := [⟨10, "c1", "", 1⟩, ⟨11, "c2", "", 2⟩, ⟨12, "c3", "", 2⟩],
    pages := [⟨20, "p1", 2, some 11, "h"⟩, ⟨21, "p2", 1, none, "h2"⟩],
    shelf := [], nextId := 30, opIndex := 0 }

/-- A single top-level leaf: it has no ancestors, so no node has children,
no book root exists, and the node's book can never be resolved. -/
def loneLeafSrc : List SourceNode := [⟨1, "A", [], ""⟩]

def loneFirstRun : RunResult :=
  runSync allOk true (fun _ => none) true loneLeafSrc emptyDest

def loneSecondRun : RunResult :=
  runSync allOk true (fun _ => none) true loneLeafSrc loneFirstRun.dest

/-- An input that contains both macro-detection substrings only as prose:
there is no `ac:structured-macro` element in it, so it holds no recognized
code-block macro, yet the gate of `_convert_confluence_macros_to_html`
admits it to the BeautifulSoup parse path. -/
def proseInput : String := "<p>ac:structured-macro & ac:name=\"code\"</p>"

/-- What BeautifulSoup's `str(soup)` produces for `proseInput`: html.parser
re-serializes the bare ampersand as the `&amp;` entity even though no macro
was found or replaced. -/
def proseOutput : String := "<p>ac:structured-macro &amp; ac:name=\"code\"</p>"

/-- The soup transform observed on `proseInput`: parsing succeeds (no
`except`), and re-serialization escapes the ampersand. -/
def soupAmpTransform : String → Option String :=
  fun s => if s == proseInput then some proseOutput else none

/-! # Theorems -/

theorem nextDelay_bounds {d : ℚ} (h0 : 0 ≤ d) (h1 : d ≤ 1) :
    d ≤ nextDelay d ∧ 0 ≤ nextDelay d ∧ nextDelay d ≤ 1 := by
  unfold nextDelay maxRateLimitDelay
  constructor
  · rcases le_or_lt (d * (3/2)) 1 with h | h
    · rw [min_eq_left h]; nlinarith
    · rw [min_eq_right h.le]; exact h1
  · constructor
    · exact le_min (by nlinarith) (by norm_num)
    · exact min_le_right _ _

theorem runDelay_ge {d : ℚ} (evs : List Bool) (h0 : 0 ≤ d) (h1 : d ≤ 1) :
    d ≤ runDelay d evs ∧ 0 ≤ runDelay d evs ∧ runDelay d evs ≤ 1 := by
  induction evs generalizing d with
  | nil => exact ⟨le_refl d, h0, h1⟩
  | cons e t ih =>
    cases e with
    | false => simpa [runDelay, List.foldl_cons] using ih h0 h1
    | true =>
      obtain ⟨hg, hn0, hn1⟩ := nextDelay_bounds h0 h1
      obtain ⟨ih1, ih2, ih3⟩ := ih hn0 hn1
      exact ⟨le_trans hg (by simpa [runDelay] using ih1),
             by simpa [runDelay] using ih2,
             by simpa [runDelay] using ih3⟩


theorem hasChildren_iff (pages : List SourceNode) (pid : Nat) :
    hasChildren pages pid = true ↔ ∃ q ∈ pages, lastAncestorId q = some pid := by
  unfold hasChildren
  rw [List.any_eq_true]
  constructor
  · rintro ⟨q, hq, h⟩
    exact ⟨q, hq, by simpa using h⟩
  · rintro ⟨q, hq, h⟩
    exact ⟨q, hq, by simpa using h⟩

theorem descendant_gives_child (pages : List SourceNode) (p : SourceNode)
    (h : ∃ q, Descendant pages q p) : ∃ q ∈ pages, lastAncestorId q = some p.id := by
  obtain ⟨q, hq⟩ := h
  induction hq with
  | child q p hq h => exact ⟨q, hq, h⟩
  | step q r p hq h hr ih => exact ih

/-- **C5.** For every source set in which no node has more than 2 ancestors,
a node's role is BookRoot iff it has at least one descendant at depth ≤ 2;
equivalently a node becomes a Book exactly when some node's ancestor chain
has it as its last element, and every node that is not a BookRoot has no
children, i.e. takes the Leaf branch of the processing loop. -/
theorem claim_C5_tree_round_trip (pages : List SourceNode)
    (hdep : ∀ p ∈ pages, p.ancestors.length ≤ 2) (p : SourceNode) (hp : p ∈ pages) :
    (isBookRoot pages p = true ↔ ∃ q, Descendant pages q p ∧ q.ancestors.length ≤ 2)
      ∧ (isBookRoot pages p = true ↔ ∃ q ∈ pages, lastAncestorId q = some p.id)
      ∧ (isBookRoot pages p = false → hasChildren pages p.id = false) := by
  have hdp : decide (p.depth ≤ 2) = true := by
    simpa [SourceNode.depth] using hdep p hp
  have hbook : isBookRoot pages p = hasChildren pages p.id := by
    simp [isBookRoot, hdp]
  refine ⟨?_, ?_, ?_⟩
  · rw [hbook, hasChildren_iff]
    constructor
    · rintro ⟨q, hq, h⟩
      exact ⟨q, Descendant.child q p hq h, hdep q hq⟩
    · rintro ⟨q, hq, _⟩
      exact descendant_gives_child pages p ⟨q, hq⟩
  · rw [hbook, hasChildren_iff]
  · rw [hbook]; exact fun h => h

/-- Witness for C5 at a concrete two-node source set. -/
theorem claim_C5_tree_round_trip_witness :
    (∀ p ∈ c5Pages, p.ancestors.length ≤ 2) ∧
    ((isBookRoot c5Pages ⟨1, "A", [], ""⟩ = true ↔
        ∃ q, Descendant c5Pages q ⟨1, "A", [], ""⟩ ∧ q.ancestors.length ≤ 2)
      ∧ (isBookRoot c5Pages ⟨1, "A", [], ""⟩ = true ↔
          ∃ q ∈ c5Pages, lastAncestorId q = some 1)
      ∧ (isBookRoot c5Pages ⟨1, "A", [], ""⟩ = false →
          hasChildren c5Pages 1 = false)) :=
  ⟨by decide, claim_C5_tree_round_trip c5Pages (by decide) ⟨1, "A", [], ""⟩ (by decide)⟩

/-- **C6.** Within a single run every rate-limit response updates the shared
backoff delay to `min(current * 1.5, cap)` and no performed operation ever
decreases it: starting from the initial 0.1 the delay is non-decreasing
under any further sequence of responses, stays within `[0, cap]`, and after
three consecutive rate-limit responses it equals `min(0.1 * 1.5^3, 1.0)`.
(Floats are modelled as rationals; `reset_rate_limit` has no call site in
the repository, so a run's operations are exactly the modelled events.) -/
theorem claim_C6_backoff_monotone (evs more : List Bool) :
    runDelay initialRateLimitDelay evs ≤
        runDelay initialRateLimitDelay (evs ++ more)
      ∧ (∀ d : ℚ, 0 ≤ d → d ≤ maxRateLimitDelay → d ≤ nextDelay d)
      ∧ runDelay initialRateLimitDelay [true, true, true] =
          min (initialRateLimitDelay * (3/2) ^ 3) maxRateLimitDelay := by
  refine ⟨?_, ?_, ?_⟩
  · have h := runDelay_ge (d := initialRateLimitDelay) evs
      (by norm_num [initialRateLimitDelay]) (by norm_num [initialRateLimitDelay])
    have h2 := runDelay_ge (d := runDelay initialRateLimitDelay evs) more
      h.2.1 h.2.2
    calc runDelay initialRateLimitDelay evs
        ≤ runDelay (runDelay initialRateLimitDelay evs) more := h2.1
      _ = runDelay initialRateLimitDelay (evs ++ more) := by
          simp [runDelay, List.foldl_append]
  · intro d h0 h1
    exact (nextDelay_bounds h0 (by simpa [maxRateLimitDelay] using h1)).1
  · norm_num [runDelay, nextDelay, initialRateLimitDelay, maxRateLimitDelay,
      min_def]

/-- **C8 (amended).** For every input on which the code's macro-recognition
gate fails — at least one of the two marker substrings is absent — the
transcoder returns its input unchanged byte for byte, for any
BeautifulSoup behaviour; and it never raises: whenever the embedded
rewriting signals a parse error (modelled by `none`), the original input is
returned unchanged.  (Inputs carrying both markers as plain prose contain
no recognized macro either, but take the parse path, where re-serialization
is not byte-identical — see the counterexample.) -/
theorem claim_C8_transcoder_passthrough (bs : Bool)
    (tr : String → Option String) (html : String)
    (hno : strIn codeMacroMarker html = false ∨ strIn codeMacroName html = false) :
    convertConfluenceMacrosToHtml bs tr html = html
      ∧ ∀ h2 : String, tr h2 = none → convertConfluenceMacrosToHtml bs tr h2 = h2 := by
  constructor
  · unfold convertConfluenceMacrosToHtml
    rcases hno with h | h <;> simp [h]
  · intro h2 htr
    unfold convertConfluenceMacrosToHtml
    rcases hin : strIn codeMacroMarker h2 && strIn codeMacroName h2 with _ | _
    · simp [hin]
    · cases hbs : bs <;> simp [hin, htr]

/-- Witness for C8: a concrete macro-free string passes through unchanged. -/
theorem claim_C8_transcoder_passthrough_witness :
    (strIn codeMacroMarker "<p>hello</p>" = false ∨
      strIn codeMacroName "<p>hello</p>" = false)
      ∧ (convertConfluenceMacrosToHtml true (fun _ => none) "<p>hello</p>"
            = "<p>hello</p>"
        ∧ ∀ h2 : String, (fun _ : String => (none : Option String)) h2 = none →
            convertConfluenceMacrosToHtml true (fun _ => none) h2 = h2) :=
  ⟨by decide,
   claim_C8_transcoder_passthrough true (fun _ => none) "<p>hello</p>" (by decide)⟩


/-- **C1 counterexample.** Both parts of the claim fail, each at a concrete
input.  (1) On the two-node source set `A ← B`, with skip-existing set and
every write succeeding, the second run from the first run's destination
creates two new entities — a renamed chapter `Chapter - A` and a fresh
`Introduction` page for the container node `A`, whose title matches no
destination page — so the second run is not entity-free (the one Leaf `B`
IS skipped there: `skipped = 1`).  (2) On the single-leaf source set
`loneLeafSrc`, whose only node is a Leaf with no resolvable book, the
second run counts that Leaf as an error, not as skipped (`skipped = 0`,
`errors = 1`, one processed node, a Leaf), so "every Leaf page is counted
as skipped / skipped equals the Leaf total" fails as well. -/
theorem claim_C1_idempotence_counterexample :
    (totalEntities c1SecondRun.dest = totalEntities c1FirstRun.dest + 2
        ∧ c1SecondRun.skipped = 1)
      ∧ (loneSecondRun.skipped = 0
        ∧ loneSecondRun.errors = 1
        ∧ (addPhantoms loneLeafSrc).length = 1
        ∧ hasChildren (addPhantoms loneLeafSrc) 1 = false) := by
  decide

/-- **C4 counterexample.** The sync's trace does not equal the order the
claim states: the first reconcile pass runs before book creation, the shelf
update runs after the second reconcile pass, and containers and leaves are
mapped by one interleaved depth-ordered loop. -/
theorem claim_C4_state_order_counterexample :
    c1FirstRun.trace ≠ specClaimedTrace := by decide

/-- **C4 (amended).** The orchestrator runs its states strictly
sequentially in the order Fetch, ClassifyBooks, ReconcileBooksPass1,
CreateBooks, ReconcileBooksPass2, AttachShelf, MapNodes (one interleaved
depth-ordered pass over containers and leaves), Summarize; no state is
revisited, and Summarize is terminal and runs for every input, every write
oracle (including all-failing ones: per-node failures never abort the
run). -/
theorem claim_C4_state_order (ok : Nat → Bool) (bs : Bool)
    (tr : String → Option String) (se : Bool) (src : List SourceNode)
    (d0 : Dest) :
    (runSync ok bs tr se src d0).trace = codeTrace
      ∧ codeTrace.Nodup
      ∧ codeTrace.getLast? = some Phase.summarize := by
  refine ⟨rfl, by decide, by decide⟩

/-- **C3 counterexample.** On the claim's three-node scenario the sync does
not attach node 3's page directly under the book produced from node 2: the
container node 2 itself becomes chapter 5 (named "B") in its own book 2,
and the page "C" is created inside that chapter. -/
theorem claim_C3_scenario_counterexample :
    (c3Run.dest.pages.filter (fun p => p.name == "C")).map
        (fun p => (p.bookId, p.chapterId)) = [(2, some 5)]
      ∧ (c3Run.dest.chapters.filter (fun c => c.id == 5)).map
          (fun c => (c.name, c.bookId)) = [("B", 2)]
      ∧ dictGet c3Run.chapterMap 2 = some 5 := by decide

/-- **C3 (amended).** On the three-node scenario nodes 1 and 2 are
classified BookRoot and node 3 Leaf, as claimed; but node 3's destination
page is attached under the Chapter that the sync creates for node 2 inside
node 2's book (every container node also becomes a chapter in its own
book), not directly under the book. -/
theorem claim_C3_scenario :
    (topLevelPages (addPhantoms c3Src)).map (·.id) = [1, 2]
      ∧ hasChildren (addPhantoms c3Src) 3 = false
      ∧ dictGet c3Run.bookMap 2 = some 2
      ∧ (c3Run.dest.books.filter (fun b => b.id == 2)).map (·.name) = ["B"]
      ∧ dictGet c3Run.chapterMap 2 = some 5
      ∧ (c3Run.dest.pages.filter (fun p => p.name == "C")).map
          (fun p => (p.bookId, p.chapterId)) = [(2, some 5)] := by decide

/-- **C7 counterexample.** Chapter-name collision detection is not scoped
to the target book: node 7 ("Dup", mapped to book 4 "P") is renamed to
"P - Dup" although book 4 contains no chapter named "Dup" — the only
"Dup" chapter lives in book 3.  Under the claim's per-book lookup no
collision exists and the chapter would be created as "Dup". -/
theorem claim_C7_chapter_collision_counterexample :
    (c7Run.dest.chapters.filter (fun c => c.bookId == 4)).map (·.name)
        = ["P", "P - Dup"]
      ∧ (c7Run.dest.books.filter (fun b => b.id == 4)).map (·.name) = ["P"]
      ∧ (c7Run.dest.chapters.filter (fun c => c.name == "Dup")).map (·.bookId)
          = [3] := by decide

/-- **C7 (amended).** When mapping a non-skipped node with children, the
Entity Mapper checks the node's lower-cased title against the run-wide
cache of existing chapters spanning all mapped books (not only the target
book's chapter set); with no collision the chapter keeps the node's title,
on a collision it is named "Parent - Child" from the immediate parent's
title; and the chapter is created under the resolved book. -/
theorem claim_C7_chapter_collision (ok : Nat → Bool) (bs se : Bool)
    (tr : String → Option String) (allPages : List SourceNode)
    (childIds : List Nat) (bookMap : List (Nat × Nat)) (st : LoopState)
    (p : SourceNode) (b : Nat)
    (hskip : dictGet st.existingPages p.title = none)
    (hch : natMem childIds p.id = true)
    (hbook : dictGet bookMap p.id = some b)
    (hok : ok st.dest.opIndex = true) :
    (processNode ok bs tr se allPages childIds bookMap st p).dest.chapters
        = st.dest.chapters
            ++ [⟨st.dest.nextId, chapterNameFor allPages st.existingChapters p, "", b⟩]
      ∧ (dictMem st.existingChapters (lowerStr p.title) = false →
          chapterNameFor allPages st.existingChapters p = p.title)
      ∧ (∀ pa pp, dictMem st.existingChapters (lowerStr p.title) = true →
          p.ancestors.getLast? = some pa → pageById allPages pa.id = some pp →
          chapterNameFor allPages st.existingChapters p
            = pp.title ++ " - " ++ p.title) := by
  refine ⟨?_, ?_, ?_⟩
  · unfold processNode
    rw [hskip]
    unfold processNodeCore
    rw [hbook]
    simp only [hch, if_true]
    simp only [createChapter, hok, if_true]
    rcases h2 : ok (st.dest.opIndex + 1) with _ | _
    · simp [createPage, h2]
    · simp [createPage, h2, updatePageChapter]
  · intro hno
    simp [chapterNameFor, hno]
  · intro pa pp hcol hpa hpp
    simp [chapterNameFor, hcol, hpa, hpp]

/-- Witness for C7 (amended): a cross-book collision renames the chapter. -/
theorem claim_C7_chapter_collision_witness :
    (dictGet ([] : List (String × Nat)) "Dup" = none
        ∧ natMem [7] 7 = true
        ∧ dictGet [(7, 4)] 7 = some 4
        ∧ allOk (emptyDest.opIndex) = true)
      ∧ ((processNode allOk true (fun _ => none) true
            [⟨6, "P", [], ""⟩, ⟨7, "Dup", [⟨6, "P"⟩], ""⟩] [7] [(7, 4)]
            ⟨emptyDest, [], [], [], [("dup", 9)], 0, 0, 0, 0⟩
            ⟨7, "Dup", [⟨6, "P"⟩], ""⟩).dest.chapters
          = emptyDest.chapters
              ++ [⟨emptyDest.nextId,
                   chapterNameFor [⟨6, "P", [], ""⟩, ⟨7, "Dup", [⟨6, "P"⟩], ""⟩]
                     [("dup", 9)] ⟨7, "Dup", [⟨6, "P"⟩], ""⟩, "", 4⟩]
        ∧ (dictMem [("dup", 9)] (lowerStr "Dup") = false →
            chapterNameFor [⟨6, "P", [], ""⟩, ⟨7, "Dup", [⟨6, "P"⟩], ""⟩]
              [("dup", 9)] ⟨7, "Dup", [⟨6, "P"⟩], ""⟩ = "Dup")
        ∧ (∀ pa pp, dictMem [("dup", 9)] (lowerStr "Dup") = true →
            ([⟨6, "P"⟩] : List Ancestor).getLast? = some pa →
            pageById [⟨6, "P", [], ""⟩, ⟨7, "Dup", [⟨6, "P"⟩], ""⟩] pa.id = some pp →
            chapterNameFor [⟨6, "P", [], ""⟩, ⟨7, "Dup", [⟨6, "P"⟩], ""⟩]
              [("dup", 9)] ⟨7, "Dup", [⟨6, "P"⟩], ""⟩
              = pp.title ++ " - " ++ "Dup")) :=
  ⟨by decide,
   claim_C7_chapter_collision allOk true true (fun _ => none)
     [⟨6, "P", [], ""⟩, ⟨7, "Dup", [⟨6, "P"⟩], ""⟩] [7] [(7, 4)]
     ⟨emptyDest, [], [], [], [("dup", 9)], 0, 0, 0, 0⟩
     ⟨7, "Dup", [⟨6, "P"⟩], ""⟩ 4 (by decide) (by decide) (by decide) (by decide)⟩

/-- **C10.** For a non-skipped container node (non-dry-run, writes
succeeding), the sync creates, besides the node's chapter, exactly one
extra page with the fixed name "Introduction" inside the new chapter,
carrying the node's transcoded body; in particular no page with the node's
own title is added, so a container's body is never stored under its own
title (unless the container itself is titled "Introduction"). -/
theorem claim_C10_intro_page (ok : Nat → Bool) (bs se : Bool)
    (tr : String → Option String) (allPages : List SourceNode)
    (childIds : List Nat) (bookMap : List (Nat × Nat)) (st : LoopState)
    (p : SourceNode) (b : Nat)
    (hskip : dictGet st.existingPages p.title = none)
    (hch : natMem childIds p.id = true)
    (hbook : dictGet bookMap p.id = some b)
    (hok1 : ok st.dest.opIndex = true)
    (hok2 : ok (st.dest.opIndex + 1) = true)
    (hfresh : ∀ q ∈ st.dest.pages, q.id ≠ st.dest.nextId + 1) :
    (processNode ok bs tr se allPages childIds bookMap st p).dest.pages
        = st.dest.pages
            ++ [⟨st.dest.nextId + 1, "Introduction", b, some st.dest.nextId,
                 htmlContentFor bs tr p⟩]
      ∧ (processNode ok bs tr se allPages childIds bookMap st p).dest.chapters
          = st.dest.chapters
              ++ [⟨st.dest.nextId, chapterNameFor allPages st.existingChapters p,
                   "", b⟩]
      ∧ (p.title ≠ "Introduction" →
          ∀ q ∈ (processNode ok bs tr se allPages childIds bookMap st p).dest.pages,
            q.name = p.title → q ∈ st.dest.pages) := by
  have hpages :
      (processNode ok bs tr se allPages childIds bookMap st p).dest.pages
        = st.dest.pages
            ++ [⟨st.dest.nextId + 1, "Introduction", b, some st.dest.nextId,
                 htmlContentFor bs tr p⟩] := by
    unfold processNode
    rw [hskip]
    unfold processNodeCore
    rw [hbook]
    simp only [hch, if_true]
    simp only [createChapter, hok1, if_true]
    simp only [createPage, hok2, if_true]
    simp only [updatePageChapter]
    rw [List.map_append]
    congr 1
    · rw [show st.dest.pages.map
          (fun q => if q.id == st.dest.nextId + 1
                    then { q with chapterId := some st.dest.nextId } else q)
          = st.dest.pages.map id from
        List.map_congr_left (fun q hq => by simp [hfresh q hq]), List.map_id]
    · simp
  refine ⟨hpages, ?_, ?_⟩
  · unfold processNode
    rw [hskip]
    unfold processNodeCore
    rw [hbook]
    simp only [hch, if_true]
    simp only [createChapter, hok1, if_true]
    simp only [createPage, hok2, if_true]
    simp [updatePageChapter]
  · intro hnotintro q hq hname
    rw [hpages] at hq
    rcases List.mem_append.mp hq with h | h
    · exact h
    · simp only [List.mem_singleton] at h
      subst h
      simp only at hname
      exact absurd hname.symm hnotintro

/-- Witness for C10 at a concrete container node. -/
theorem claim_C10_intro_page_witness :
    (dictGet ([] : List (String × Nat)) "T" = none
        ∧ natMem [1] 1 = true
        ∧ dictGet [(1, 5)] 1 = some 5
        ∧ allOk emptyDest.opIndex = true
        ∧ allOk (emptyDest.opIndex + 1) = true
        ∧ ∀ q ∈ emptyDest.pages, q.id ≠ emptyDest.nextId + 1)
      ∧ ((processNode allOk true (fun _ => none) true [⟨1, "T", [], "body"⟩]
            [1] [(1, 5)] ⟨emptyDest, [], [], [], [], 0, 0, 0, 0⟩
            ⟨1, "T", [], "body"⟩).dest.pages
          = emptyDest.pages
              ++ [⟨emptyDest.nextId + 1, "Introduction", 5, some emptyDest.nextId,
                   htmlContentFor true (fun _ => none) ⟨1, "T", [], "body"⟩⟩]
        ∧ (processNode allOk true (fun _ => none) true [⟨1, "T", [], "body"⟩]
            [1] [(1, 5)] ⟨emptyDest, [], [], [], [], 0, 0, 0, 0⟩
            ⟨1, "T", [], "body"⟩).dest.chapters
          = emptyDest.chapters
              ++ [⟨emptyDest.nextId,
                   chapterNameFor [⟨1, "T", [], "body"⟩] [] ⟨1, "T", [], "body"⟩,
                   "", 5⟩]
        ∧ (("T" : String) ≠ "Introduction" →
            ∀ q ∈ (processNode allOk true (fun _ => none) true [⟨1, "T", [], "body"⟩]
                [1] [(1, 5)] ⟨emptyDest, [], [], [], [], 0, 0, 0, 0⟩
                ⟨1, "T", [], "body"⟩).dest.pages,
              q.name = "T" → q ∈ emptyDest.pages)) :=
  ⟨by decide,
   claim_C10_intro_page allOk true true (fun _ => none) [⟨1, "T", [], "body"⟩]
     [1] [(1, 5)] ⟨emptyDest, [], [], [], [], 0, 0, 0, 0⟩ ⟨1, "T", [], "body"⟩ 5
     (by decide) (by decide) (by decide) (by decide) (by decide) (by decide)⟩

/-- **C9.** If the chapter write for container node X fails, the error
counter is incremented and X is skipped (no chapter-map entry, no entities
written, and — the run being a total function — no exception propagates);
a child of X with no other resolvable ancestor chapter is then still
created, attached directly at the book level (`chapterId = none`) rather
than dropped. -/
theorem claim_C9_degrade_on_failure (ok : Nat → Bool) (bs se : Bool)
    (tr : String → Option String) (allPages : List SourceNode)
    (childIds : List Nat) (bookMap : List (Nat × Nat)) (st : LoopState)
    (X C : SourceNode) (bX bC : Nat)
    (hskipX : dictGet st.existingPages X.title = none)
    (hchX : natMem childIds X.id = true)
    (hbookX : dictGet bookMap X.id = some bX)
    (hfail : ok st.dest.opIndex = false)
    (hskipC : dictGet st.existingPages C.title = none)
    (hchC : natMem childIds C.id = false)
    (hbookC : dictGet bookMap C.id = some bC)
    (hnoparent : findParentChapter st.chapterMap C.ancestors.reverse = none)
    (hokC : ok (st.dest.opIndex + 1) = true) :
    (processNode ok bs tr se allPages childIds bookMap st X).errors
        = st.errors + 1
      ∧ (processNode ok bs tr se allPages childIds bookMap st X).chapterMap
          = st.chapterMap
      ∧ (processNode ok bs tr se allPages childIds bookMap st X).dest.pages
          = st.dest.pages
      ∧ (processNode ok bs tr se allPages childIds bookMap st X).dest.chapters
          = st.dest.chapters
      ∧ (processNode ok bs tr se allPages childIds bookMap
            (processNode ok bs tr se allPages childIds bookMap st X) C).dest.pages
          = st.dest.pages
              ++ [⟨st.dest.nextId, C.title, bC, none, htmlContentFor bs tr C⟩]
      ∧ (processNode ok bs tr se allPages childIds bookMap
            (processNode ok bs tr se allPages childIds bookMap st X) C).errors
          = st.errors + 1
      ∧ (processNode ok bs tr se allPages childIds bookMap
            (processNode ok bs tr se allPages childIds bookMap st X) C).created
          = st.created + 1 := by
  have hX : processNode ok bs tr se allPages childIds bookMap st X
      = { st with dest := { st.dest with opIndex := st.dest.opIndex + 1 },
                  errors := st.errors + 1 } := by
    unfold processNode
    rw [hskipX]
    unfold processNodeCore
    rw [hbookX]
    simp [hchX, createChapter, hfail]
  rw [hX]
  refine ⟨rfl, rfl, rfl, rfl, ?_⟩
  unfold processNode
  simp only
  rw [hskipC]
  unfold processNodeCore
  simp only
  rw [hbookC]
  simp only [hchC, Bool.false_eq_true, if_false]
  rw [hnoparent]
  simp [createPage, hokC]

/-- Witness for C9: the first write fails, the child's page still lands at
book level. -/
theorem claim_C9_degrade_on_failure_witness :
    (dictGet ([] : List (String × Nat)) "X" = none
        ∧ natMem [1] 1 = true
        ∧ dictGet [(1, 3), (2, 3)] 1 = some 3
        ∧ (fun i => !(i == 0)) emptyDest.opIndex = false
        ∧ dictGet ([] : List (String × Nat)) "C" = none
        ∧ natMem [1] 2 = false
        ∧ dictGet [(1, 3), (2, 3)] 2 = some 3
        ∧ findParentChapter [] ([⟨1, "X"⟩] : List Ancestor).reverse = none
        ∧ (fun i => !(i == 0)) (emptyDest.opIndex + 1) = true)
      ∧ ((processNode (fun i => !(i == 0)) true (fun _ => none) true
            [⟨1, "X", [], ""⟩, ⟨2, "C", [⟨1, "X"⟩], ""⟩] [1] [(1, 3), (2, 3)]
            ⟨emptyDest, [], [], [], [], 0, 0, 0, 0⟩ ⟨1, "X", [], ""⟩).errors = 0 + 1
        ∧ (processNode (fun i => !(i == 0)) true (fun _ => none) true
            [⟨1, "X", [], ""⟩, ⟨2, "C", [⟨1, "X"⟩], ""⟩] [1] [(1, 3), (2, 3)]
            ⟨emptyDest, [], [], [], [], 0, 0, 0, 0⟩ ⟨1, "X", [], ""⟩).chapterMap = []
        ∧ (processNode (fun i => !(i == 0)) true (fun _ => none) true
            [⟨1, "X", [], ""⟩, ⟨2, "C", [⟨1, "X"⟩], ""⟩] [1] [(1, 3), (2, 3)]
            ⟨emptyDest, [], [], [], [], 0, 0, 0, 0⟩
            ⟨1, "X", [], ""⟩).dest.pages = emptyDest.pages
        ∧ (processNode (fun i => !(i == 0)) true (fun _ => none) true
            [⟨1, "X", [], ""⟩, ⟨2, "C", [⟨1, "X"⟩], ""⟩] [1] [(1, 3), (2, 3)]
            ⟨emptyDest, [], [], [], [], 0, 0, 0, 0⟩
            ⟨1, "X", [], ""⟩).dest.chapters = emptyDest.chapters
        ∧ (processNode (fun i => !(i == 0)) true (fun _ => none) true
            [⟨1, "X", [], ""⟩, ⟨2, "C", [⟨1, "X"⟩], ""⟩] [1] [(1, 3), (2, 3)]
            (processNode (fun i => !(i == 0)) true (fun _ => none) true
              [⟨1, "X", [], ""⟩, ⟨2, "C", [⟨1, "X"⟩], ""⟩] [1] [(1, 3), (2, 3)]
              ⟨emptyDest, [], [], [], [], 0, 0, 0, 0⟩ ⟨1, "X", [], ""⟩)
            ⟨2, "C", [⟨1, "X"⟩], ""⟩).dest.pages
          = emptyDest.pages
              ++ [⟨emptyDest.nextId, "C", 3, none,
                   htmlContentFor true (fun _ => none) ⟨2, "C", [⟨1, "X"⟩], ""⟩⟩]
        ∧ (processNode (fun i => !(i == 0)) true (fun _ => none) true
            [⟨1, "X", [], ""⟩, ⟨2, "C", [⟨1, "X"⟩], ""⟩] [1] [(1, 3), (2, 3)]
            (processNode (fun i => !(i == 0)) true (fun _ => none) true
              [⟨1, "X", [], ""⟩, ⟨2, "C", [⟨1, "X"⟩], ""⟩] [1] [(1, 3), (2, 3)]
              ⟨emptyDest, [], [], [], [], 0, 0, 0, 0⟩ ⟨1, "X", [], ""⟩)
            ⟨2, "C", [⟨1, "X"⟩], ""⟩).errors = 0 + 1
        ∧ (processNode (fun i => !(i == 0)) true (fun _ => none) true
            [⟨1, "X", [], ""⟩, ⟨2, "C", [⟨1, "X"⟩], ""⟩] [1] [(1, 3), (2, 3)]
            (processNode (fun i => !(i == 0)) true (fun _ => none) true
              [⟨1, "X", [], ""⟩, ⟨2, "C", [⟨1, "X"⟩], ""⟩] [1] [(1, 3), (2, 3)]
              ⟨emptyDest, [], [], [], [], 0, 0, 0, 0⟩ ⟨1, "X", [], ""⟩)
            ⟨2, "C", [⟨1, "X"⟩], ""⟩).created = 0 + 1) :=
  ⟨by decide,
   claim_C9_degrade_on_failure (fun i => !(i == 0)) true true (fun _ => none)
     [⟨1, "X", [], ""⟩, ⟨2, "C", [⟨1, "X"⟩], ""⟩] [1] [(1, 3), (2, 3)]
     ⟨emptyDest, [], [], [], [], 0, 0, 0, 0⟩ ⟨1, "X", [], ""⟩
     ⟨2, "C", [⟨1, "X"⟩], ""⟩ 3 3 (by decide) (by decide) (by decide) (by decide)
     (by decide) (by decide) (by decide) (by decide) (by decide)⟩

/-! ### Sorting and dict infrastructure lemmas -/

theorem stableInsert_perm {α : Type} (le : α → α → Bool) (x : α) (l : List α) :
    List.Perm (stableInsert le x l) (x :: l) := by
  induction l with
  | nil => exact List.Perm.refl _
  | cons y ys ih =>
    unfold stableInsert
    cases h : le y x with
    | false => simp only [if_false, Bool.false_eq_true]; exact List.Perm.refl _
    | true =>
      simp only [if_true]
      exact (ih.cons y).trans (List.Perm.swap x y ys)

theorem stableSort_perm {α : Type} (le : α → α → Bool) (l : List α) :
    List.Perm (stableSort le l) l := by
  suffices h : ∀ (l acc : List α),
      List.Perm (l.foldl (fun acc x => stableInsert le x acc) acc) (acc ++ l) by
    simpa using h l []
  intro l
  induction l with
  | nil => intro acc; simp
  | cons x xs ih =>
    intro acc
    refine ((ih (stableInsert le x acc)).trans ?_)
    refine (((stableInsert_perm le x acc).append_right xs).trans ?_)
    exact List.perm_middle.symm

theorem mem_stableInsert {α : Type} (le : α → α → Bool) (x a : α) (l : List α) :
    a ∈ stableInsert le x l ↔ a = x ∨ a ∈ l := by
  simpa using (stableInsert_perm le x l).mem_iff

theorem stableInsert_pairwise {α : Type} {le : α → α → Bool}
    (trans : ∀ a b c, le a b = true → le b c = true → le a c = true)
    (total : ∀ a b, (le a b || le b a) = true) (x : α) {l : List α}
    (h : l.Pairwise (fun a b => le a b = true)) :
    (stableInsert le x l).Pairwise (fun a b => le a b = true) := by
  induction l with
  | nil => simp [stableInsert]
  | cons y ys ih =>
    rcases h with _ | ⟨hy, hys⟩
    unfold stableInsert
    cases hle : le y x with
    | true =>
      simp only [if_true]
      refine List.Pairwise.cons ?_ (ih hys)
      intro b hb
      rcases (mem_stableInsert le x b ys).mp hb with rfl | hb
      · exact hle
      · exact hy b hb
    | false =>
      simp only [Bool.false_eq_true, if_false]
      have hxy : le x y = true := by
        rcases Bool.or_eq_true_iff.mp (total x y) with h1 | h1
        · exact h1
        · rw [h1] at hle; exact absurd hle (by simp)
      refine List.Pairwise.cons ?_ (List.Pairwise.cons hy hys)
      intro b hb
      rcases List.mem_cons.mp hb with rfl | hb
      · exact hxy
      · exact trans x y b hxy (hy b hb)

theorem stableSort_pairwise {α : Type} {le : α → α → Bool}
    (trans : ∀ a b c, le a b = true → le b c = true → le a c = true)
    (total : ∀ a b, (le a b || le b a) = true) (l : List α) :
    (stableSort le l).Pairwise (fun a b => le a b = true) := by
  suffices h : ∀ (l acc : List α),
      acc.Pairwise (fun a b => le a b = true) →
      (l.foldl (fun acc x => stableInsert le x acc) acc).Pairwise
        (fun a b => le a b = true) by
    exact h l [] List.Pairwise.nil
  intro l
  induction l with
  | nil => intro acc hacc; simpa using hacc
  | cons x xs ih =>
    intro acc hacc
    exact ih _ (stableInsert_pairwise trans total x hacc)

theorem mem_foldl_dedup {α : Type} [BEq α] [LawfulBEq α] (l : List α) :
    ∀ (acc : List α) (a : α),
      (a ∈ l.foldl
          (fun acc x => if acc.any (fun y => y == x) then acc else acc ++ [x]) acc)
        ↔ a ∈ acc ∨ a ∈ l := by
  induction l with
  | nil => intro acc a; simp
  | cons x xs ih =>
    intro acc a
    simp only [List.foldl_cons]
    cases h : acc.any (fun y => y == x) with
    | true =>
      simp only [if_true]
      rw [ih acc a]
      have hx : x ∈ acc := by
        rcases List.any_eq_true.mp h with ⟨y, hy, hyx⟩
        rcases eq_of_beq hyx with rfl
        exact hy
      constructor
      · rintro (h1 | h1)
        · exact Or.inl h1
        · exact Or.inr (List.mem_cons_of_mem x h1)
      · rintro (h1 | h1)
        · exact Or.inl h1
        · rcases List.mem_cons.mp h1 with rfl | h1
          · exact Or.inl hx
          · exact Or.inr h1
    | false =>
      simp only [Bool.false_eq_true, if_false]
      rw [ih (acc ++ [x]) a]
      simp only [List.mem_append, List.mem_singleton, List.mem_cons]
      tauto

theorem nodup_foldl_dedup {α : Type} [BEq α] [LawfulBEq α] (l : List α) :
    ∀ (acc : List α), acc.Nodup →
      (l.foldl
          (fun acc x => if acc.any (fun y => y == x) then acc else acc ++ [x])
          acc).Nodup := by
  induction l with
  | nil => intro acc h; simpa using h
  | cons x xs ih =>
    intro acc hacc
    simp only [List.foldl_cons]
    cases h : acc.any (fun y => y == x) with
    | true => exact ih acc hacc
    | false =>
      refine ih (acc ++ [x]) ?_
      rw [List.nodup_append]
      refine ⟨hacc, List.nodup_singleton x, ?_⟩
      intro a ha hax
      rcases List.mem_singleton.mp hax with rfl
      have hcon : acc.any (fun y => y == a) = true :=
        List.any_eq_true.mpr ⟨a, ha, by simp⟩
      rw [h] at hcon
      exact Bool.false_ne_true hcon

theorem mem_dedupFirst {α : Type} [BEq α] [LawfulBEq α] (l : List α) (a : α) :
    a ∈ dedupFirst l ↔ a ∈ l := by
  unfold dedupFirst
  rw [mem_foldl_dedup]
  simp

theorem dedupFirst_nodup {α : Type} [BEq α] [LawfulBEq α] (l : List α) :
    (dedupFirst l).Nodup := by
  unfold dedupFirst
  exact nodup_foldl_dedup l [] List.Pairwise.nil

theorem bookLe_total (d : Dest) (a b : Book) :
    (bookLe d a b || bookLe d b a) = true := by
  simp only [bookLe, Bool.or_eq_true, decide_eq_true_eq, Bool.and_eq_true,
    beq_iff_eq]
  omega

theorem bookLe_trans (d : Dest) (a b c : Book) (h1 : bookLe d a b = true)
    (h2 : bookLe d b c = true) : bookLe d a c = true := by
  simp only [bookLe, Bool.or_eq_true, decide_eq_true_eq, Bool.and_eq_true,
    beq_iff_eq] at h1 h2 ⊢
  omega

theorem stableInsert_congr {α : Type} {le le' : α → α → Bool} (x : α)
    (l : List α) (h : ∀ y ∈ l, le y x = le' y x) :
    stableInsert le x l = stableInsert le' x l := by
  induction l with
  | nil => rfl
  | cons y ys ih =>
    unfold stableInsert
    rw [h y (List.mem_cons_self y ys)]
    cases le' y x with
    | false => rfl
    | true =>
      simp only [if_true]
      rw [ih (fun z hz => h z (List.mem_cons_of_mem y hz))]

theorem stableSort_congr {α : Type} {le le' : α → α → Bool} (l : List α)
    (h : ∀ a ∈ l, ∀ b ∈ l, le a b = le' a b) :
    stableSort le l = stableSort le' l := by
  suffices hgen : ∀ (rest acc : List α), (∀ a ∈ rest, a ∈ l) →
      (∀ a ∈ acc, a ∈ l) →
      rest.foldl (fun acc x => stableInsert le x acc) acc
        = rest.foldl (fun acc x => stableInsert le' x acc) acc by
    exact hgen l [] (fun a ha => ha) (fun a ha => absurd ha (List.not_mem_nil a))
  intro rest
  induction rest with
  | nil => intro acc _ _; rfl
  | cons x xs ih =>
    intro acc hrest hacc
    simp only [List.foldl_cons]
    rw [stableInsert_congr x acc
      (fun y hy => h y (hacc y hy) x (hrest x (List.mem_cons_self x xs)))]
    refine ih _ (fun a ha => hrest a (List.mem_cons_of_mem x ha)) ?_
    intro a ha
    rcases (mem_stableInsert le' x a acc).mp ha with rfl | ha
    · exact hrest a (List.mem_cons_self a xs)
    · exact hacc a ha

/-! ### Counting lemmas for the reconciler -/

theorem filter_length_map_inv {α : Type} (f : α → α) (p : α → Bool)
    (h : ∀ x, p (f x) = p x) (l : List α) :
    ((l.map f).filter p).length = (l.filter p).length := by
  induction l with
  | nil => rfl
  | cons x xs ih =>
    simp only [List.map_cons, List.filter_cons, h x]
    cases p x <;> simp [ih]

theorem updatePageChapter_books (d : Dest) (pid : Nat) (c : Option Nat) :
    (updatePageChapter d pid c).books = d.books := rfl

theorem updatePageChapter_chapters (d : Dest) (pid : Nat) (c : Option Nat) :
    (updatePageChapter d pid c).chapters = d.chapters := rfl

theorem updatePageChapter_shelf (d : Dest) (pid : Nat) (c : Option Nat) :
    (updatePageChapter d pid c).shelf = d.shelf := rfl

theorem updatePageChapter_pageCount (d : Dest) (pid : Nat) (c : Option Nat)
    (b : Nat) : pageCount (updatePageChapter d pid c) b = pageCount d b := by
  unfold pageCount updatePageChapter
  exact filter_length_map_inv _ _
    (fun x => by cases h : x.id == pid <;> simp [h]) d.pages

theorem createChapter_allOk (d : Dest) (n de : String) (t : Nat) :
    createChapter allOk d n de t
      = (some d.nextId,
         { d with chapters := d.chapters ++ [⟨d.nextId, n, de, t⟩],
                  nextId := d.nextId + 1, opIndex := d.opIndex + 1 }) := rfl

theorem createPage_allOk (d : Dest) (n h : String) (t : Nat) (c : Option Nat) :
    createPage allOk d n h t c
      = (some d.nextId,
         { d with pages := d.pages ++ [⟨d.nextId, n, t, c, h⟩],
                  nextId := d.nextId + 1, opIndex := d.opIndex + 1 }) := rfl

theorem copyChapters_aux (t : Nat) (chs : List Chapter) :
    ∀ (st : Dest × List (Nat × Nat)),
      (chs.foldl (copyChapterStep allOk t) st).1.pages = st.1.pages
      ∧ (chs.foldl (copyChapterStep allOk t) st).1.books = st.1.books
      ∧ (chs.foldl (copyChapterStep allOk t) st).1.shelf = st.1.shelf
      ∧ ∀ b, chapterCount (chs.foldl (copyChapterStep allOk t) st).1 b
          = chapterCount st.1 b + (if t = b then chs.length else 0) := by
  induction chs with
  | nil => intro st; simp
  | cons c cs ih =>
    intro st
    simp only [List.foldl_cons]
    obtain ⟨h1, h2, h3, h4⟩ := ih (copyChapterStep allOk t st c)
    have hstep : (copyChapterStep allOk t st c).1
        = { st.1 with
            chapters := st.1.chapters ++ [⟨st.1.nextId, c.name, c.description, t⟩],
            nextId := st.1.nextId + 1, opIndex := st.1.opIndex + 1 } := by
      simp [copyChapterStep, createChapter_allOk]
    refine ⟨by rw [h1, hstep], by rw [h2, hstep], by rw [h3, hstep], ?_⟩
    intro b
    rw [h4 b, hstep]
    unfold chapterCount
    simp only [List.filter_append, List.length_append]
    by_cases htb : t = b
    · subst htb
      simp only [List.filter_cons, List.filter_nil]
      simp [List.length_cons]
      omega
    · have : ((⟨st.1.nextId, c.name, c.description, t⟩ : Chapter).bookId == b) = false := by
        simpa using htb
      simp [List.filter_cons, this, htb]

theorem copyPageStep_spec (t : Nat) (m : List (Nat × Nat)) (d : Dest) (p : Page) :
    (copyPageStep allOk t m d p).books = d.books
      ∧ (copyPageStep allOk t m d p).chapters = d.chapters
      ∧ (copyPageStep allOk t m d p).shelf = d.shelf
      ∧ ∀ b, pageCount (copyPageStep allOk t m d p) b
          = pageCount d b + (if t = b then 1 else 0) := by
  have hcount : ∀ (c : Option Nat) (b : Nat),
      pageCount { d with pages := d.pages ++ [⟨d.nextId, p.name, t, c, p.html⟩],
                         nextId := d.nextId + 1, opIndex := d.opIndex + 1 } b
        = pageCount d b + (if t = b then 1 else 0) := by
    intro c b
    unfold pageCount
    simp only [List.filter_append, List.length_append]
    by_cases htb : t = b
    · subst htb
      simp [List.filter_cons]
    · have : ((⟨d.nextId, p.name, t, c, p.html⟩ : Page).bookId == b) = false := by
        simpa using htb
      simp [List.filter_cons, this, htb]
  unfold copyPageStep
  simp only [createPage_allOk]
  cases nc : (match p.chapterId with | some oc => dictGet m oc | none => none) with
  | none => exact ⟨rfl, rfl, rfl, fun b => hcount none b⟩
  | some c =>
    refine ⟨updatePageChapter_books _ _ _, updatePageChapter_chapters _ _ _,
            updatePageChapter_shelf _ _ _, ?_⟩
    intro b
    rw [updatePageChapter_pageCount]
    exact hcount (some c) b

theorem copyPages_aux (t : Nat) (m : List (Nat × Nat)) (pgs : List Page) :
    ∀ (d : Dest),
      (pgs.foldl (copyPageStep allOk t m) d).books = d.books
      ∧ (pgs.foldl (copyPageStep allOk t m) d).chapters = d.chapters
      ∧ (pgs.foldl (copyPageStep allOk t m) d).shelf = d.shelf
      ∧ ∀ b, pageCount (pgs.foldl (copyPageStep allOk t m) d) b
          = pageCount d b + (if t = b then pgs.length else 0) := by
  induction pgs with
  | nil => intro d; simp
  | cons p ps ih =>
    intro d
    simp only [List.foldl_cons]
    obtain ⟨s1, s2, s3, s4⟩ := copyPageStep_spec t m d p
    obtain ⟨h1, h2, h3, h4⟩ := ih (copyPageStep allOk t m d p)
    refine ⟨by rw [h1, s1], by rw [h2, s2], by rw [h3, s3], ?_⟩
    intro b
    rw [h4 b, s4 b]
    by_cases htb : t = b <;> simp [htb, List.length_cons] <;> omega

theorem pageCount_eq_of_pages (d1 d2 : Dest) (h : d1.pages = d2.pages) (b : Nat) :
    pageCount d1 b = pageCount d2 b := by
  unfold pageCount
  rw [h]

theorem chapterCount_eq_of_chapters (d1 d2 : Dest) (h : d1.chapters = d2.chapters)
    (b : Nat) : chapterCount d1 b = chapterCount d2 b := by
  unfold chapterCount
  rw [h]

theorem copyLoser_spec (d : Dest) (t l : Nat) :
    (copyLoser allOk d t l).books = d.books
      ∧ (copyLoser allOk d t l).shelf = d.shelf
      ∧ ∀ b, contentCount (copyLoser allOk d t l) b
          = contentCount d b + (if t = b then contentCount d l else 0) := by
  simp only [copyLoser, copyChapters, copyPages]
  obtain ⟨c1, c2, c3, c4⟩ :=
    copyChapters_aux t (d.chapters.filter (fun c => c.bookId == l)) (d, [])
  obtain ⟨p1, p2, p3, p4⟩ :=
    copyPages_aux t
      ((d.chapters.filter (fun c => c.bookId == l)).foldl
          (copyChapterStep allOk t) (d, [])).2
      (d.pages.filter (fun p => p.bookId == l))
      ((d.chapters.filter (fun c => c.bookId == l)).foldl
          (copyChapterStep allOk t) (d, [])).1
  refine ⟨by rw [p1, c2], by rw [p3, c3], ?_⟩
  intro b
  unfold contentCount
  rw [p4 b, chapterCount_eq_of_chapters _ _ p2 b, c4 b,
      pageCount_eq_of_pages _ _ c1 b]
  have hpl : (d.pages.filter (fun p => p.bookId == l)).length = pageCount d l := rfl
  have hcl : (d.chapters.filter (fun c => c.bookId == l)).length
      = chapterCount d l := rfl
  rw [hpl, hcl]
  by_cases htb : t = b <;> simp [htb] <;> omega

theorem foldCopyLosers_spec (t : Nat) (ls : List Book) :
    ∀ (d : Dest),
      (ls.foldl (fun acc b => copyLoser allOk acc t b.id) d).books = d.books
      ∧ (∀ x, x ≠ t →
          contentCount (ls.foldl (fun acc b => copyLoser allOk acc t b.id) d) x
            = contentCount d x)
      ∧ ((∀ b ∈ ls, b.id ≠ t) →
          contentCount (ls.foldl (fun acc b => copyLoser allOk acc t b.id) d) t
            = contentCount d t + (ls.map (fun b => contentCount d b.id)).sum) := by
  induction ls with
  | nil => intro d; exact ⟨rfl, fun _ _ => rfl, fun _ => by simp⟩
  | cons b bs ih =>
    intro d
    simp only [List.foldl_cons]
    obtain ⟨l1, _, l3⟩ := copyLoser_spec d t b.id
    obtain ⟨h1, h2, h3⟩ := ih (copyLoser allOk d t b.id)
    refine ⟨by rw [h1, l1], ?_, ?_⟩
    · intro x hx
      rw [h2 x hx, l3 x, if_neg (Ne.symm hx)]
      omega
    · intro hne
      rw [h3 (fun c hc => hne c (List.mem_cons_of_mem b hc)), l3 t, if_pos rfl]
      have hmap : bs.map (fun c => contentCount (copyLoser allOk d t b.id) c.id)
          = bs.map (fun c => contentCount d c.id) := by
        apply List.map_congr_left
        intro c hc
        rw [l3 c.id, if_neg (hne c (List.mem_cons_of_mem b hc)).symm]
        omega
      rw [hmap]
      simp only [List.map_cons, List.sum_cons]
      omega

theorem mergeGroup_books (d : Dest) (g : List Book) :
    (mergeGroup allOk d g).1.books = d.books := by
  unfold mergeGroup
  by_cases h : g.length ≤ 1
  · simp [h]
  · simp only [h, if_false]
    cases hs : stableSort (bookLe d) g with
    | nil => rfl
    | cons keep losers => exact (foldCopyLosers_spec keep.id losers d).1

theorem mergeGroup_count_other (d : Dest) (g : List Book) (x : Nat)
    (hx : x ∉ g.map (·.id)) :
    contentCount (mergeGroup allOk d g).1 x = contentCount d x := by
  unfold mergeGroup
  by_cases h : g.length ≤ 1
  · simp [h]
  · simp only [h, if_false]
    cases hs : stableSort (bookLe d) g with
    | nil => rfl
    | cons keep losers =>
      have hkeep : keep ∈ g := by
        have := (stableSort_perm (bookLe d) g).mem_iff.mp
          (by rw [hs]; exact List.mem_cons_self keep losers)
        exact this
      have hxk : x ≠ keep.id := by
        intro hxe
        exact hx (hxe ▸ List.mem_map.mpr ⟨keep, hkeep, rfl⟩)
      exact (foldCopyLosers_spec keep.id losers d).2.1 x hxk

theorem mergeGroup_losers_sub (d : Dest) (g : List Book) :
    ∀ x ∈ (mergeGroup allOk d g).2.1, x ∈ g.map (·.id) := by
  unfold mergeGroup
  by_cases h : g.length ≤ 1
  · simp [h]
  · simp only [h, if_false]
    cases hs : stableSort (bookLe d) g with
    | nil => simp
    | cons keep losers =>
      intro x hx
      simp only at hx
      rcases List.mem_map.mp hx with ⟨b, hb, rfl⟩
      have hbg : b ∈ g := (stableSort_perm (bookLe d) g).mem_iff.mp
        (by rw [hs]; exact List.mem_cons_of_mem keep hb)
      exact List.mem_map.mpr ⟨b, hbg, rfl⟩

theorem mergeGroup_main (d : Dest) (g : List Book)
    (hnodup : (g.map (·.id)).Nodup) (hlen : 2 ≤ g.length) :
    ∃ keep losers, stableSort (bookLe d) g = keep :: losers
      ∧ (mergeGroup allOk d g).2.2 = some keep
      ∧ (mergeGroup allOk d g).2.1 = losers.map (·.id)
      ∧ (mergeGroup allOk d g).1.books = d.books
      ∧ contentCount (mergeGroup allOk d g).1 keep.id
          = (g.map (fun c => contentCount d c.id)).sum
      ∧ (∀ c ∈ losers, bookLe d keep c = true)
      ∧ keep.id ∉ losers.map (·.id)
      ∧ List.Perm (keep :: losers) g := by
  have hnot : ¬ g.length ≤ 1 := by omega
  cases hs : stableSort (bookLe d) g with
  | nil =>
    exfalso
    have := (stableSort_perm (bookLe d) g).length_eq
    rw [hs] at this
    simp at this
    omega
  | cons keep losers =>
    have hperm : List.Perm (keep :: losers) g := by
      rw [← hs]; exact stableSort_perm (bookLe d) g
    have hnodup2 : ((keep :: losers).map (·.id)).Nodup :=
      ((hperm.map (·.id)).nodup_iff).mpr hnodup
    have hknotin : keep.id ∉ losers.map (·.id) := by
      simp only [List.map_cons, List.nodup_cons] at hnodup2
      exact hnodup2.1
    have hlne : ∀ b ∈ losers, b.id ≠ keep.id := by
      intro b hb he
      exact hknotin (he ▸ List.mem_map.mpr ⟨b, hb, rfl⟩)
    have hpair : (keep :: losers).Pairwise (fun a b => bookLe d a b = true) := by
      rw [← hs]
      exact stableSort_pairwise (bookLe_trans d) (bookLe_total d) g
    refine ⟨keep, losers, rfl, ?_, ?_, ?_, ?_, ?_, hknotin, hperm⟩
    · unfold mergeGroup
      simp only [hnot, if_false, hs]
    · unfold mergeGroup
      simp only [hnot, if_false, hs]
    · unfold mergeGroup
      simp only [hnot, if_false, hs]
      exact (foldCopyLosers_spec keep.id losers d).1
    · unfold mergeGroup
      simp only [hnot, if_false, hs]
      rw [(foldCopyLosers_spec keep.id losers d).2.2 hlne]
      have : (g.map (fun c => contentCount d c.id)).sum
          = ((keep :: losers).map (fun c => contentCount d c.id)).sum :=
        (List.Perm.sum_eq (hperm.map (fun c => contentCount d c.id))).symm
      rw [this]
      simp [List.map_cons, List.sum_cons]
    · exact fun c hc => List.rel_of_pairwise_cons hpair hc

theorem deleteBooks_books (ids : List Nat) :
    ∀ d : Dest, (deleteBooks allOk d ids).books
      = d.books.filter (fun b => !(natMem ids b.id)) := by
  induction ids with
  | nil =>
    intro d
    simp [deleteBooks, natMem]
  | cons i is ih =>
    intro d
    show (deleteBooks allOk (deleteBook allOk d i) is).books = _
    rw [ih]
    show ((d.books.filter (fun b => !(b.id == i))).filter
        (fun b => !(natMem is b.id))) = _
    rw [List.filter_filter]
    apply List.filter_congr
    intro b _
    by_cases hb : b.id = i
    · subst hb
      simp [natMem]
    · have h1 : (b.id == i) = false := by simpa using hb
      have h2 : (i == b.id) = false := by simpa using Ne.symm hb
      simp [natMem, h1, h2]

theorem deleteBook_count (d : Dest) (i x : Nat) (hx : x ≠ i) :
    contentCount (deleteBook allOk d i) x = contentCount d x := by
  unfold contentCount pageCount chapterCount deleteBook
  simp only [allOk, if_true]
  rw [List.filter_filter, List.filter_filter]
  have hp : d.pages.filter (fun p => (p.bookId == x) && !(p.bookId == i))
      = d.pages.filter (fun p => p.bookId == x) := by
    apply List.filter_congr
    intro p _
    by_cases hpb : p.bookId = x
    · subst hpb; simp [hx]
    · simp [hpb]
  have hc : d.chapters.filter (fun c => (c.bookId == x) && !(c.bookId == i))
      = d.chapters.filter (fun c => c.bookId == x) := by
    apply List.filter_congr
    intro c _
    by_cases hcb : c.bookId = x
    · subst hcb; simp [hx]
    · simp [hcb]
  rw [hp, hc]

theorem deleteBooks_count (ids : List Nat) :
    ∀ (d : Dest) (x : Nat), natMem ids x = false →
      contentCount (deleteBooks allOk d ids) x = contentCount d x := by
  induction ids with
  | nil => intro d x _; rfl
  | cons i is ih =>
    intro d x hx
    simp only [natMem, List.any_cons, Bool.or_eq_false_iff] at hx
    have hxi : x ≠ i := by
      intro he
      subst he
      simp at hx
    show contentCount (deleteBooks allOk (deleteBook allOk d i) is) x = _
    rw [ih (deleteBook allOk d i) x (by simpa [natMem] using hx.2),
        deleteBook_count d i x hxi]

theorem natMem_iff (l : List Nat) (x : Nat) : natMem l x = true ↔ x ∈ l := by
  simp only [natMem, List.any_eq_true, beq_iff_eq]
  constructor
  · rintro ⟨y, hy, rfl⟩; exact hy
  · intro h; exact ⟨x, h, rfl⟩

theorem bookLe_iff (d : Dest) (a b : Book) :
    bookLe d a b = true
      ↔ contentCount d b.id < contentCount d a.id
        ∨ (contentCount d a.id = contentCount d b.id ∧ a.id ≤ b.id) := by
  simp [bookLe]

theorem group_ids_disjoint (d0 : Dest) (hids : (d0.books.map (·.id)).Nodup)
    {n m : String} (hnm : n ≠ m) (x : Nat)
    (hx : x ∈ (d0.books.filter (fun b => b.name == n)).map (·.id)) :
    x ∉ (d0.books.filter (fun b => b.name == m)).map (·.id) := by
  rcases List.mem_map.mp hx with ⟨b1, hb1, rfl⟩
  intro hx2
  rcases List.mem_map.mp hx2 with ⟨b2, hb2, hid⟩
  have hb1m : b1 ∈ d0.books := List.mem_of_mem_filter hb1
  have hb2m : b2 ∈ d0.books := List.mem_of_mem_filter hb2
  have hb1n : b1.name = n := by simpa using List.of_mem_filter hb1
  have hb2n : b2.name = m := by simpa using List.of_mem_filter hb2
  have heq : b2 = b1 := List.inj_on_of_nodup_map hids hb2m hb1m hid
  rw [heq, hb1n] at hb2n
  exact hnm hb2n

theorem filter_eq_single_of (l : List Book) (hN : (l.map (·.id)).Nodup)
    (x : Book) (hx : x ∈ l) (p : Book → Bool)
    (hiff : ∀ y ∈ l, p y = true ↔ y = x) : l.filter p = [x] := by
  induction l with
  | nil => cases hx
  | cons a t ih =>
    simp only [List.map_cons, List.nodup_cons] at hN
    by_cases hpa : p a = true
    · have hax : a = x := (hiff a (List.mem_cons_self a t)).mp hpa
      subst hax
      simp only [List.filter_cons, hpa, if_true]
      have ht : t.filter p = [] := by
        rw [List.filter_eq_nil_iff]
        intro y hy hpy
        have hya : y = a := (hiff y (List.mem_cons_of_mem a hy)).mp hpy
        subst hya
        exact hN.1 (List.mem_map.mpr ⟨y, hy, rfl⟩)
      rw [ht]
    · have hax : a ≠ x := fun he => hpa ((hiff a (List.mem_cons_self a t)).mpr he)
      have hx' : x ∈ t := by
        rcases List.mem_cons.mp hx with rfl | h
        · exact absurd rfl hax
        · exact h
      simp only [List.filter_cons, hpa, Bool.false_eq_true, if_false]
      exact ih hN.2 hx' (fun y hy => hiff y (List.mem_cons_of_mem a hy))

theorem reconcileStep_fst (d0 : Dest) (st : Dest × List Nat × List (String × Book))
    (m : String) :
    (reconcileStep allOk d0 st m).1
      = (mergeGroup allOk st.1 (d0.books.filter (fun b => b.name == m))).1 := rfl

theorem reconcileStep_toDel (d0 : Dest)
    (st : Dest × List Nat × List (String × Book)) (m : String) :
    (reconcileStep allOk d0 st m).2.1
      = st.2.1
          ++ (mergeGroup allOk st.1 (d0.books.filter (fun b => b.name == m))).2.1 := rfl

/-- The cache component of one reconciliation step: at most one entry is
appended, it is keyed by the processed name, and its value is the book
`mergeGroup` reports as kept. -/
theorem reconcileStep_cache (d0 : Dest)
    (st : Dest × List Nat × List (String × Book)) (m : String) :
    ∃ ext, (reconcileStep allOk d0 st m).2.2 = st.2.2 ++ ext
      ∧ ∀ x ∈ ext, x.1 = m
        ∧ (mergeGroup allOk st.1
            (d0.books.filter (fun b => b.name == m))).2.2 = some x.2 := by
  simp only [reconcileStep]
  rcases hm : (mergeGroup allOk st.1
      (d0.books.filter (fun b => b.name == m))).2.2 with _ | b
  · refine ⟨[], by simp, by simp⟩
  · refine ⟨[(m, b)], rfl, ?_⟩
    intro x hx
    rcases List.mem_singleton.mp hx with rfl
    exact ⟨rfl, rfl⟩

/-- Folding the reconciler over names all different from `n` does not touch
the books list, the content counts of `n`'s candidates, only marks
non-candidate ids for deletion, and appends only cache entries keyed by
names other than `n`. -/
theorem reconcileFold_away (d0 : Dest) (hids : (d0.books.map (·.id)).Nodup)
    (n : String) (ns : List String) (hns : ∀ m ∈ ns, m ≠ n) :
    ∀ st : Dest × List Nat × List (String × Book),
      st.1.books = d0.books →
      ((ns.foldl (reconcileStep allOk d0) st).1.books = d0.books
        ∧ (∀ x, x ∈ (d0.books.filter (fun b => b.name == n)).map (·.id) →
            contentCount (ns.foldl (reconcileStep allOk d0) st).1 x
              = contentCount st.1 x)
        ∧ (∃ suffix, (ns.foldl (reconcileStep allOk d0) st).2.1 = st.2.1 ++ suffix
            ∧ ∀ x ∈ suffix,
                x ∉ (d0.books.filter (fun b => b.name == n)).map (·.id))
        ∧ ∃ cext, (ns.foldl (reconcileStep allOk d0) st).2.2 = st.2.2 ++ cext
            ∧ ∀ e ∈ cext, e.1 ≠ n) := by
  induction ns with
  | nil =>
    intro st hb
    exact ⟨hb, fun _ _ => rfl, ⟨[], by simp, by simp⟩, ⟨[], by simp, by simp⟩⟩
  | cons m ms ih =>
    intro st hb
    have hmn : m ≠ n := hns m (List.mem_cons_self m ms)
    simp only [List.foldl_cons]
    have hb' : (reconcileStep allOk d0 st m).1.books = d0.books := by
      rw [reconcileStep_fst, mergeGroup_books, hb]
    obtain ⟨ih1, ih2, ⟨suf, ihsuf, ihsufg⟩, cex, ihcex, ihcexg⟩ :=
      ih (fun q hq => hns q (List.mem_cons_of_mem m hq))
        (reconcileStep allOk d0 st m) hb'
    refine ⟨ih1, ?_, ?_, ?_⟩
    · intro x hxg
      rw [ih2 x hxg, reconcileStep_fst]
      exact mergeGroup_count_other st.1 _ x
        (group_ids_disjoint d0 hids (Ne.symm hmn) x hxg)
    · refine ⟨(mergeGroup allOk st.1
          (d0.books.filter (fun b => b.name == m))).2.1 ++ suf, ?_, ?_⟩
      · rw [ihsuf, reconcileStep_toDel, List.append_assoc]
      · intro x hxs
        rcases List.mem_append.mp hxs with hx1 | hx2
        · have hxm := mergeGroup_losers_sub st.1 _ x hx1
          intro hxn
          exact group_ids_disjoint d0 hids (Ne.symm hmn) x hxn hxm
        · exact ihsufg x hx2
    · obtain ⟨e, he, heg⟩ := reconcileStep_cache d0 st m
      refine ⟨e ++ cex, ?_, ?_⟩
      · rw [ihcex, he, List.append_assoc]
      · intro x hx
        rcases List.mem_append.mp hx with h1 | h2
        · rw [(heg x h1).1]
          exact hmn
        · exact ihcexg x h2

/-- Lookup in an associative list finds a middle entry when every earlier
key differs. -/
theorem dictGet_middle {κ ν : Type} [BEq κ] [LawfulBEq κ]
    (m1 m2 : List (κ × ν)) (k : κ) (v : ν)
    (h : ∀ e ∈ m1, e.1 ≠ k) :
    dictGet (m1 ++ (k, v) :: m2) k = some v := by
  unfold dictGet
  induction m1 with
  | nil => simp
  | cons e t ih =>
    have he : (e.1 == k) = false := by
      simpa using h e (List.mem_cons_self e t)
    simp only [List.cons_append, List.find?_cons, he]
    exact ih (fun x hx => h x (List.mem_cons_of_mem e hx))

/-- The full per-name behaviour of reconciliation pass 1 over a workspace
with distinct book ids: every name with at least one candidate keeps
exactly one book `s`, the cache maps the name to `s`, and when the group
held at least two candidates `s` is the highest-content (ties: lowest id)
candidate and absorbs the group's summed content counts. -/
theorem reconcileName_full (d : Dest) (n : String)
    (hids : (d.books.map (·.id)).Nodup)
    (hgne0 : d.books.filter (fun b => b.name == n) ≠ []) :
    ∃ s : Book,
      s ∈ d.books.filter (fun b => b.name == n)
        ∧ ((reconcileBooks allOk d).1.books.filter (fun b => b.name == n)) = [s]
        ∧ dictGet (reconcileBooks allOk d).2 n = some s
        ∧ (2 ≤ (d.books.filter (fun b => b.name == n)).length →
            ((∀ c ∈ d.books.filter (fun b => b.name == n),
                contentCount d c.id < contentCount d s.id
                  ∨ (contentCount d c.id = contentCount d s.id ∧ s.id ≤ c.id))
              ∧ contentCount (reconcileBooks allOk d).1 s.id
                  = ((d.books.filter (fun b => b.name == n)).map
                      (fun c => contentCount d c.id)).sum)) := by
  classical
  set g := d.books.filter (fun b => b.name == n) with hg
  set names := dedupFirst (d.books.map (·.name)) with hnames
  -- the target name occurs exactly once in the processed name list
  have hgne : g ≠ [] := hgne0
  have hnin : n ∈ names := by
    rcases List.exists_mem_of_ne_nil g hgne with ⟨b, hb⟩
    have hbn : b.name = n := by simpa using List.of_mem_filter hb
    rw [hnames]
    rw [mem_dedupFirst]
    exact List.mem_map.mpr ⟨b, List.mem_of_mem_filter hb, hbn⟩
  have hnd : names.Nodup := dedupFirst_nodup _
  obtain ⟨pre, post, hsplit⟩ := List.append_of_mem hnin
  have hnd2 := hnd
  rw [hsplit, List.nodup_append] at hnd2
  obtain ⟨hpreN, hconsN, hdisj⟩ := hnd2
  have hpre : ∀ m ∈ pre, m ≠ n := by
    intro m hm he
    subst he
    exact hdisj hm (List.mem_cons_self m post)
  have hpost : ∀ m ∈ post, m ≠ n := by
    intro m hm he
    subst he
    exact (List.nodup_cons.mp hconsN).1 hm
  -- group id facts
  have hgsub : List.Sublist g d.books := by rw [hg]; exact List.filter_sublist _
  have hgnodup : (g.map (·.id)).Nodup :=
    List.Nodup.sublist (hgsub.map (·.id)) hids
  -- phase A: names before n
  obtain ⟨a1, a2, ⟨sufA, hsufA, hsufAg⟩, cexA, hcexA, hcexAg⟩ :=
    reconcileFold_away d hids n pre hpre (d, [], []) rfl
  set stA := pre.foldl (reconcileStep allOk d) (d, [], []) with hstA
  by_cases hN : 2 ≤ g.length
  case neg =>
    -- exactly one candidate: its group is left untouched and cached
    have hlen1 : g.length = 1 := by
      have hpos : 0 < g.length := List.length_pos.mpr hgne
      omega
    obtain ⟨b, hgb⟩ := List.length_eq_one.mp hlen1
    have hbmem : b ∈ g := by rw [hgb]; exact List.mem_singleton_self b
    have hbidg : b.id ∈ g.map (·.id) := List.mem_map.mpr ⟨b, hbmem, rfl⟩
    have hmg : mergeGroup allOk stA.1 g = (stA.1, [], some b) := by
      unfold mergeGroup
      rw [if_pos (by rw [hgb]; simp : g.length ≤ 1), hgb]
      rfl
    set stN := reconcileStep allOk d stA n with hstN
    have hstepN : reconcileStep allOk d stA n
        = (stA.1, stA.2.1 ++ [], stA.2.2 ++ [(n, b)]) := by
      simp only [reconcileStep]
      rw [← hg, hmg]
    have hstN1 : stN.1 = stA.1 := by rw [hstN, hstepN]
    have hstNdel : stN.2.1 = stA.2.1 := by rw [hstN, hstepN]; simp
    have hstNcache : stN.2.2 = stA.2.2 ++ [(n, b)] := by rw [hstN, hstepN]
    have hbooks2 : stN.1.books = d.books := by rw [hstN1, a1]
    obtain ⟨c1, c2, ⟨sufC, hsufC, hsufCg⟩, cexC, hcexC, hcexCg⟩ :=
      reconcileFold_away d hids n post hpost stN hbooks2
    set rC := post.foldl (reconcileStep allOk d) stN with hrC
    have hrecon : reconcileBooks allOk d
        = (deleteBooks allOk rC.1 rC.2.1, rC.2.2) := by
      simp only [reconcileBooks]
      rw [← hnames, hsplit, List.foldl_append, List.foldl_cons, ← hstA, ← hstN,
          ← hrC]
    have hbnot : b.id ∉ rC.2.1 := by
      rw [hsufC, hstNdel]
      intro hmem
      rcases List.mem_append.mp hmem with h1 | h2
      · rw [hsufA] at h1
        simp only [List.nil_append] at h1
        exact hsufAg b.id h1 hbidg
      · exact hsufCg b.id h2 hbidg
    have hnmem : natMem rC.2.1 b.id = false := by
      rcases hq : natMem rC.2.1 b.id with _ | _
      · rfl
      · exact absurd ((natMem_iff _ _).mp hq) hbnot
    refine ⟨b, hbmem, ?_, ?_, ?_⟩
    · rw [hrecon]
      simp only
      rw [deleteBooks_books, c1]
      have hcomm : (d.books.filter (fun bb => !(natMem rC.2.1 bb.id))).filter
          (fun bb => bb.name == n)
          = g.filter (fun bb => !(natMem rC.2.1 bb.id)) := by
        rw [hg, List.filter_filter, List.filter_filter]
        apply List.filter_congr
        intro bb _
        rw [Bool.and_comm]
      rw [hcomm, hgb]
      simp [hnmem]
    · rw [hrecon]
      simp only
      rw [hcexC, hstNcache, hcexA]
      show dictGet ((([] ++ cexA) ++ [(n, b)]) ++ cexC) n = some b
      simp only [List.nil_append]
      rw [List.append_assoc, List.singleton_append]
      exact dictGet_middle cexA cexC n b (fun e he => hcexAg e he)
    · intro h2
      exfalso
      omega
  -- at least two candidates: the full merge happens
  -- the comparator agrees with the original state on the candidates
  have hcongr : stableSort (bookLe stA.1) g = stableSort (bookLe d) g := by
    apply stableSort_congr
    intro a ha b hb
    unfold bookLe
    rw [a2 a.id (List.mem_map.mpr ⟨a, ha, rfl⟩),
        a2 b.id (List.mem_map.mpr ⟨b, hb, rfl⟩)]
  obtain ⟨keep, losers, hs, hkb, hls, hbooksN, hcountN, hqual, hknotin, hperm⟩ :=
    mergeGroup_main stA.1 g hgnodup hN
  have hkeepg : keep ∈ g := hperm.mem_iff.mp (List.mem_cons_self keep losers)
  have hkeepidg : keep.id ∈ g.map (·.id) := List.mem_map.mpr ⟨keep, hkeepg, rfl⟩
  -- the survivor count in the original state
  have hsum : (g.map (fun c => contentCount stA.1 c.id)).sum
      = (g.map (fun c => contentCount d c.id)).sum := by
    congr 1
    apply List.map_congr_left
    intro c hc
    exact a2 c.id (List.mem_map.mpr ⟨c, hc, rfl⟩)
  -- step at n
  set stN := reconcileStep allOk d stA n with hstN
  have hstN1 : stN.1 = (mergeGroup allOk stA.1 g).1 := by
    rw [hstN, reconcileStep_fst, hg]
  have hstNdel : stN.2.1 = stA.2.1 ++ losers.map (·.id) := by
    rw [hstN, reconcileStep_toDel, ← hg, hls]
  have hstNcache : stN.2.2 = stA.2.2 ++ [(n, keep)] := by
    rw [hstN]
    simp only [reconcileStep]
    rw [← hg, hkb]
  have hbooks2 : stN.1.books = d.books := by rw [hstN1, hbooksN, a1]
  -- phase C: names after n
  obtain ⟨c1, c2, ⟨sufC, hsufC, hsufCg⟩, cexC, hcexC, hcexCg⟩ :=
    reconcileFold_away d hids n post hpost stN hbooks2
  set rC := post.foldl (reconcileStep allOk d) stN with hrC
  have hcountC : contentCount rC.1 keep.id
      = (g.map (fun c => contentCount d c.id)).sum := by
    rw [c2 keep.id hkeepidg, hstN1, hcountN, hsum]
  -- the final to-delete list never contains the survivor's id
  have hkeepNotDel : keep.id ∉ rC.2.1 := by
    rw [hsufC, hstNdel]
    intro hmem
    rcases List.mem_append.mp hmem with h1 | h2
    · rcases List.mem_append.mp h1 with h3 | h4
      · rw [hsufA] at h3
        simp only [List.nil_append] at h3
        exact hsufAg keep.id h3 hkeepidg
      · exact hknotin h4
    · exact hsufCg keep.id h2 hkeepidg
  -- candidates marked for deletion are exactly the losers
  have hdelG : ∀ y ∈ g, (natMem rC.2.1 y.id = true ↔ y ∈ losers) := by
    intro y hy
    rw [natMem_iff]
    constructor
    · intro hmem
      rw [hsufC, hstNdel] at hmem
      rcases List.mem_append.mp hmem with h1 | h2
      · rcases List.mem_append.mp h1 with h3 | h4
        · rw [hsufA] at h3
          simp only [List.nil_append] at h3
          exact absurd (List.mem_map.mpr ⟨y, hy, rfl⟩) (hsufAg y.id h3)
        · rcases List.mem_map.mp h4 with ⟨c, hc, hcy⟩
          have hcg : c ∈ g := hperm.mem_iff.mp (List.mem_cons_of_mem keep hc)
          have : c = y := List.inj_on_of_nodup_map hids
            (hgsub.mem hcg) (hgsub.mem hy) hcy
          rw [← this]
          exact hc
      · exact absurd (List.mem_map.mpr ⟨y, hy, rfl⟩) (hsufCg y.id h2)
    · intro hyl
      rw [hsufC, hstNdel]
      exact List.mem_append.mpr (Or.inl (List.mem_append.mpr
        (Or.inr (List.mem_map.mpr ⟨y, hyl, rfl⟩))))
  -- unfold the reconciler to the analysed folds
  have hrecon : reconcileBooks allOk d
      = (deleteBooks allOk rC.1 rC.2.1, rC.2.2) := by
    simp only [reconcileBooks]
    rw [← hnames, hsplit, List.foldl_append, List.foldl_cons, ← hstA, ← hstN,
        ← hrC]
  refine ⟨keep, hkeepg, ?_, ?_, fun _ => ⟨?_, ?_⟩⟩
  · -- exactly one book with the name remains
    rw [hrecon]
    simp only
    rw [deleteBooks_books, c1]
    have hcomm : (d.books.filter (fun b => !(natMem rC.2.1 b.id))).filter
        (fun b => b.name == n)
        = g.filter (fun b => !(natMem rC.2.1 b.id)) := by
      rw [hg, List.filter_filter, List.filter_filter]
      apply List.filter_congr
      intro b _
      rw [Bool.and_comm]
    rw [hcomm]
    apply filter_eq_single_of g hgnodup keep hkeepg
    intro y hy
    constructor
    · intro hpy
      have hynotdel : y.id ∉ rC.2.1 := by
        intro hc
        rw [(natMem_iff _ _).mpr hc] at hpy
        simp at hpy
      have hynotl : y ∉ losers := by
        intro hc
        exact hynotdel ((natMem_iff _ _).mp ((hdelG y hy).mpr hc))
      rcases List.mem_cons.mp (hperm.mem_iff.mpr hy) with h | h
      · exact h
      · exact absurd h hynotl
    · rintro rfl
      have : natMem rC.2.1 y.id = false := by
        rcases h : natMem rC.2.1 y.id with _ | _
        · rfl
        · exact absurd ((natMem_iff _ _).mp h) hkeepNotDel
      rw [this]
      rfl
  · -- the cache maps the name to the survivor
    rw [hrecon]
    simp only
    rw [hcexC, hstNcache, hcexA]
    show dictGet ((([] ++ cexA) ++ [(n, keep)]) ++ cexC) n = some keep
    simp only [List.nil_append]
    rw [List.append_assoc, List.singleton_append]
    exact dictGet_middle cexA cexC n keep (fun e he => hcexAg e he)
  · -- survivor quality
    intro c hc
    rcases List.mem_cons.mp (hperm.mem_iff.mpr hc) with rfl | hcl
    · exact Or.inr ⟨rfl, le_refl _⟩
    · have hle : bookLe stA.1 keep c = true := hqual c hcl
      have hle2 : bookLe d keep c = true := by
        have ha := a2 keep.id hkeepidg
        have hb := a2 c.id (List.mem_map.mpr ⟨c, hc, rfl⟩)
        unfold bookLe at hle ⊢
        rw [ha, hb] at hle
        exact hle
      rcases (bookLe_iff d keep c).mp hle2 with h | h
      · exact Or.inl h
      · exact Or.inr ⟨h.1.symm, h.2⟩
  · -- survivor content
    rw [hrecon]
    simp only
    rw [deleteBooks_count rC.2.1 rC.1 keep.id ?_, hcountC]
    rcases h : natMem rC.2.1 keep.id with _ | _
    · rfl
    · exact absurd ((natMem_iff _ _).mp h) hkeepNotDel

/-- **C2.** For every destination workspace holding at least two books of
the same name (distinct entity ids), after the Duplicate Reconciler runs
(with its writes succeeding) exactly one book with that name remains; the
survivor is the candidate with the highest content count, ties broken by
ascending id; and it holds the sum of all candidates' page-plus-chapter
counts — copied duplicates are counted separately, not deduplicated. -/
theorem claim_C2_merge_invariant (d : Dest) (n : String)
    (hids : (d.books.map (·.id)).Nodup)
    (hN : 2 ≤ (d.books.filter (fun b => b.name == n)).length) :
    ∃ s : Book,
      ((reconcileBooks allOk d).1.books.filter (fun b => b.name == n)) = [s]
        ∧ s ∈ d.books.filter (fun b => b.name == n)
        ∧ (∀ c ∈ d.books.filter (fun b => b.name == n),
            contentCount d c.id < contentCount d s.id
              ∨ (contentCount d c.id = contentCount d s.id ∧ s.id ≤ c.id))
        ∧ contentCount (reconcileBooks allOk d).1 s.id
            = ((d.books.filter (fun b => b.name == n)).map
                (fun c => contentCount d c.id)).sum := by
  have hne : d.books.filter (fun b => b.name == n) ≠ [] := by
    intro h
    rw [h] at hN
    simp at hN
  obtain ⟨s, hmem, hfilt, _, himp⟩ := reconcileName_full d n hids hne
  obtain ⟨hq, hsum⟩ := himp hN
  exact ⟨s, hfilt, hmem, hq, hsum⟩

/-- Witness for C2 on a concrete workspace with two books named "X"
(contents 2 and 3) and an unrelated book "Y". -/
theorem claim_C2_merge_invariant_witness :
    ((dupWorkspace.books.map (·.id)).Nodup
        ∧ 2 ≤ (dupWorkspace.books.filter (fun b => b.name == "X")).length)
      ∧ ∃ s : Book,
        ((reconcileBooks allOk dupWorkspace).1.books.filter
            (fun b => b.name == "X")) = [s]
          ∧ s ∈ dupWorkspace.books.filter (fun b => b.name == "X")
          ∧ (∀ c ∈ dupWorkspace.books.filter (fun b => b.name == "X"),
              contentCount dupWorkspace c.id < contentCount dupWorkspace s.id
                ∨ (contentCount dupWorkspace c.id = contentCount dupWorkspace s.id
                    ∧ s.id ≤ c.id))
          ∧ contentCount (reconcileBooks allOk dupWorkspace).1 s.id
              = ((dupWorkspace.books.filter (fun b => b.name == "X")).map
                  (fun c => contentCount dupWorkspace c.id)).sum :=
  ⟨⟨by decide, by decide⟩,
   claim_C2_merge_invariant dupWorkspace "X" (by decide) (by decide)⟩

/-! ### Lemmas for second-run book stability (C1) -/

theorem dictGet_append_of_isSome {κ ν : Type} [BEq κ] (m ext : List (κ × ν))
    (k : κ) (h : (dictGet m k).isSome) : dictGet (m ++ ext) k = dictGet m k := by
  unfold dictGet at h ⊢
  induction m with
  | nil => simp at h
  | cons e t ih =>
    simp only [List.cons_append, List.find?_cons]
    cases he : (e.1 == k) with
    | true => simp [List.find?_cons, he]
    | false =>
      simp only [List.find?_cons, he] at h ⊢
      exact ih h

theorem dictGet_none_any {κ ν : Type} [BEq κ] (m : List (κ × ν)) (k : κ)
    (h : dictGet m k = none) : m.any (fun e => e.1 == k) = false := by
  unfold dictGet at h
  rw [Option.map_eq_none'] at h
  rw [List.find?_eq_none] at h
  rw [List.any_eq_false]
  intro e he
  exact fun hc => (h e he) hc

theorem dictPut_of_get_none {κ ν : Type} [BEq κ] (m : List (κ × ν)) (k : κ)
    (v : ν) (h : dictGet m k = none) : dictPut m k v = m ++ [(k, v)] := by
  unfold dictPut
  rw [dictGet_none_any m k h]
  rfl

theorem dictGet_append_self {κ ν : Type} [BEq κ] [LawfulBEq κ]
    (m : List (κ × ν)) (k : κ) (v : ν) (h : dictGet m k = none) :
    dictGet (m ++ [(k, v)]) k = some v := by
  unfold dictGet at h ⊢
  rw [Option.map_eq_none'] at h
  rw [List.find?_eq_none] at h
  induction m with
  | nil => simp
  | cons e t ih =>
    simp only [List.cons_append, List.find?_cons]
    cases he : (e.1 == k) with
    | true =>
      exact absurd he (by simpa using h e (List.mem_cons_self e t))
    | false =>
      exact ih (fun x hx => h x (List.mem_cons_of_mem e hx))

theorem dictGet_append_none {κ ν : Type} [BEq κ] (m m2 : List (κ × ν))
    (k : κ) (h : dictGet m k = none) :
    dictGet (m ++ m2) k = dictGet m2 k := by
  unfold dictGet at h ⊢
  induction m with
  | nil => simp
  | cons e t ih =>
    simp only [List.cons_append, List.find?_cons] at h ⊢
    cases he : (e.1 == k) with
    | true => simp [he] at h
    | false =>
      simp only [he] at h ⊢
      exact ih h

theorem dictGet_mem {κ ν : Type} [BEq κ] [LawfulBEq κ] (m : List (κ × ν))
    (k : κ) (v : ν) (h : dictGet m k = some v) : (k, v) ∈ m := by
  unfold dictGet at h
  rw [Option.map_eq_some'] at h
  obtain ⟨e, he, hev⟩ := h
  have hmem := List.mem_of_find?_eq_some he
  have hk : e.1 = k := by simpa using List.find?_some he
  subst hev
  rw [← hk]
  exact hmem

theorem key_not_mem_of_get_none {κ ν : Type} [BEq κ] [LawfulBEq κ]
    (m : List (κ × ν)) (k : κ) (h : dictGet m k = none) :
    k ∉ m.map (·.1) := by
  intro hc
  rcases List.mem_map.mp hc with ⟨e, he, hek⟩
  have := dictGet_none_any m k h
  rw [List.any_eq_false] at this
  exact this e he (by simp [hek])

theorem filter_name_le_one (l : List Book) (h : (l.map (·.name)).Nodup)
    (nm : String) : (l.filter (fun b => b.name == nm)).length ≤ 1 := by
  induction l with
  | nil => simp
  | cons a t ih =>
    simp only [List.map_cons, List.nodup_cons] at h
    by_cases ha : a.name = nm
    · have hfa : (a.name == nm) = true := by simpa using ha
      simp only [List.filter_cons, hfa, if_true]
      have ht : t.filter (fun b => b.name == nm) = [] := by
        rw [List.filter_eq_nil_iff]
        intro y hy hc
        have hyn : y.name = nm := by simpa using hc
        exact h.1 (List.mem_map.mpr ⟨y, hy, by rw [hyn, ha]⟩)
      rw [ht]
      simp
    · have hfa : (a.name == nm) = false := by simpa using ha
      simp only [List.filter_cons, hfa, Bool.false_eq_true, if_false]
      exact ih h.2

/-- Converse of `filter_name_le_one`: if every name picks out at most one
book, the book names are pairwise distinct. -/
theorem names_nodup_of_filter_le_one (l : List Book)
    (h : ∀ nm, (l.filter (fun b => b.name == nm)).length ≤ 1) :
    (l.map (·.name)).Nodup := by
  induction l with
  | nil => simp
  | cons a t ih =>
    simp only [List.map_cons, List.nodup_cons]
    constructor
    · intro hmem
      rcases List.mem_map.mp hmem with ⟨b, hb, hbn⟩
      have h2 := h a.name
      have hbf : b ∈ t.filter (fun x => x.name == a.name) :=
        List.mem_filter.mpr ⟨hb, by simpa using hbn⟩
      have hpos : 0 < (t.filter (fun x => x.name == a.name)).length :=
        List.length_pos.mpr (List.ne_nil_of_mem hbf)
      simp only [List.filter_cons, beq_self_eq_true, if_true,
        List.length_cons] at h2
      omega
    · apply ih
      intro nm
      have h3 := h nm
      simp only [List.filter_cons] at h3
      by_cases ha : (a.name == nm) = true
      · rw [if_pos ha] at h3
        simp only [List.length_cons] at h3
        omega
      · rwa [if_neg ha] at h3

/-- The book `mergeGroup` reports as kept comes from the group. -/
theorem mergeGroup_some_mem (d : Dest) (g : List Book) (b : Book)
    (h : (mergeGroup allOk d g).2.2 = some b) : b ∈ g := by
  unfold mergeGroup at h
  by_cases hl : g.length ≤ 1
  · rw [if_pos hl] at h
    cases g with
    | nil => cases h
    | cons x t =>
      have hx : x = b := by simpa using h
      rw [← hx]
      exact List.mem_cons_self x t
  · rw [if_neg hl] at h
    cases hs : stableSort (bookLe d) g with
    | nil => rw [hs] at h; cases h
    | cons keep losers =>
      rw [hs] at h
      have hk : keep = b := by simpa using h
      rw [← hk]
      exact (stableSort_perm (bookLe d) g).mem_iff.mp
        (by rw [hs]; exact List.mem_cons_self keep losers)

/-- The pass-1 fold never changes the books list of its running state. -/
theorem reconcileFold_books_all (d0 : Dest) (ns : List String) :
    ∀ st, (ns.foldl (reconcileStep allOk d0) st).1.books = st.1.books := by
  induction ns with
  | nil => intro st; rfl
  | cons m ms ih =>
    intro st
    rw [List.foldl_cons, ih, reconcileStep_fst, mergeGroup_books]

/-- Pass 1 only deletes books: the surviving list is a sublist of the
original. -/
theorem reconcileBooks_sublist (d : Dest) :
    List.Sublist (reconcileBooks allOk d).1.books d.books := by
  show List.Sublist (deleteBooks allOk
      ((dedupFirst (d.books.map (·.name))).foldl (reconcileStep allOk d)
        (d, [], [])).1
      ((dedupFirst (d.books.map (·.name))).foldl (reconcileStep allOk d)
        (d, [], [])).2.1).books d.books
  rw [deleteBooks_books, reconcileFold_books_all]
  exact List.filter_sublist _

/-- Every cache entry of the pass-1 fold maps a name to one of that name's
candidate books. -/
theorem reconcileFold_cache_entries (d0 : Dest) (ns : List String) :
    ∀ st : Dest × List Nat × List (String × Book),
      (∀ e ∈ st.2.2, e.2 ∈ d0.books.filter (fun b => b.name == e.1)) →
      ∀ e ∈ (ns.foldl (reconcileStep allOk d0) st).2.2,
        e.2 ∈ d0.books.filter (fun b => b.name == e.1) := by
  induction ns with
  | nil => intro st h; exact h
  | cons m ms ih =>
    intro st h
    rw [List.foldl_cons]
    apply ih
    obtain ⟨ext, hext, hextg⟩ := reconcileStep_cache d0 st m
    rw [hext]
    intro e he
    rcases List.mem_append.mp he with h1 | h2
    · exact h e h1
    · obtain ⟨hkey, hval⟩ := hextg e h2
      have := mergeGroup_some_mem st.1 _ e.2 hval
      rw [hkey]
      exact this

/-- Every entry of the pass-1 name cache maps a name to one of its
candidates. -/
theorem reconcileCache_entries (d : Dest) :
    ∀ e ∈ (reconcileBooks allOk d).2,
      e.2 ∈ d.books.filter (fun b => b.name == e.1) := by
  intro e he
  have hrw : (reconcileBooks allOk d).2
      = ((dedupFirst (d.books.map (·.name))).foldl (reconcileStep allOk d)
          (d, [], [])).2.2 := rfl
  rw [hrw] at he
  exact reconcileFold_cache_entries d _ (d, [], []) (by intro x hx; cases hx) e he

/-- After pass 1 the surviving book names are pairwise distinct. -/
theorem reconcileBooks_names_nodup (d : Dest)
    (hids : (d.books.map (·.id)).Nodup) :
    ((reconcileBooks allOk d).1.books.map (·.name)).Nodup := by
  apply names_nodup_of_filter_le_one
  intro nm
  by_cases hN : 2 ≤ (d.books.filter (fun b => b.name == nm)).length
  · obtain ⟨s, _, hfilt, _, _⟩ := reconcileName_full d nm hids (by
      intro hc
      rw [hc] at hN
      simp at hN)
    rw [hfilt]
    simp
  · have hle : ((reconcileBooks allOk d).1.books.filter
        (fun b => b.name == nm)).length
        ≤ (d.books.filter (fun b => b.name == nm)).length :=
      List.Sublist.length_le (List.Sublist.filter _ (reconcileBooks_sublist d))
    omega

/-- The pass-1 cache is sound: a hit returns a surviving book carrying the
looked-up name. -/
theorem reconcileBooks_cache_sound (d : Dest)
    (hids : (d.books.map (·.id)).Nodup) (k : String) (v : Book)
    (h : dictGet (reconcileBooks allOk d).2 k = some v) :
    v.name = k ∧ v ∈ (reconcileBooks allOk d).1.books := by
  have hmem := dictGet_mem _ _ _ h
  have hvg := reconcileCache_entries d (k, v) hmem
  have hne : d.books.filter (fun b => b.name == k) ≠ [] :=
    List.ne_nil_of_mem hvg
  obtain ⟨s, _, hfilt, hget, _⟩ := reconcileName_full d k hids hne
  have hvs : v = s := by
    rw [h] at hget
    exact Option.some_inj.mp hget
  constructor
  · simpa using List.of_mem_filter hvg
  · rw [hvs]
    have hsmem : s ∈ (reconcileBooks allOk d).1.books.filter
        (fun b => b.name == k) := by
      rw [hfilt]
      exact List.mem_singleton_self s
    exact List.mem_of_mem_filter hsmem

/-- The pass-1 cache covers every surviving book's name. -/
theorem reconcileBooks_covers (d : Dest)
    (hids : (d.books.map (·.id)).Nodup) :
    ∀ b ∈ (reconcileBooks allOk d).1.books,
      (dictGet (reconcileBooks allOk d).2 b.name).isSome := by
  intro b hb
  have hbd : b ∈ d.books := (reconcileBooks_sublist d).subset hb
  have hne : d.books.filter (fun x => x.name == b.name) ≠ [] :=
    List.ne_nil_of_mem (List.mem_filter.mpr ⟨hbd, by simp⟩)
  obtain ⟨s, _, _, hget, _⟩ := reconcileName_full d b.name hids hne
  rw [hget]
  rfl

theorem reconcileFold_singleton (d0 : Dest)
    (hle : ∀ nm, (d0.books.filter (fun b => b.name == nm)).length ≤ 1)
    (ns : List String) :
    ∀ st : Dest × List Nat × List (String × Book),
      ((ns.foldl (reconcileStep allOk d0) st).1 = st.1)
        ∧ ((ns.foldl (reconcileStep allOk d0) st).2.1 = st.2.1)
        ∧ (∃ ext, (ns.foldl (reconcileStep allOk d0) st).2.2 = st.2.2 ++ ext)
        ∧ (∀ nm ∈ ns, d0.books.filter (fun b => b.name == nm) ≠ [] →
            (dictGet ((ns.foldl (reconcileStep allOk d0) st).2.2) nm).isSome) := by
  induction ns with
  | nil =>
    intro st
    exact ⟨rfl, rfl, ⟨[], by simp⟩, by simp⟩
  | cons m ms ih =>
    intro st
    have hmg : mergeGroup allOk st.1 (d0.books.filter (fun b => b.name == m))
        = (st.1, [], (d0.books.filter (fun b => b.name == m)).head?) := by
      unfold mergeGroup
      rw [if_pos (hle m)]
    rcases hh : (d0.books.filter (fun b => b.name == m)).head? with _ | b
    · have hstep : reconcileStep allOk d0 st m = (st.1, st.2.1, st.2.2) := by
        simp only [reconcileStep]
        rw [hmg, hh]
        simp
      simp only [List.foldl_cons, hstep]
      obtain ⟨ih1, ih2, ⟨ext, ihext⟩, ih4⟩ := ih (st.1, st.2.1, st.2.2)
      refine ⟨ih1, ih2, ⟨ext, ihext⟩, ?_⟩
      intro nm hnm hne
      rcases List.mem_cons.mp hnm with rfl | hnm2
      · exact absurd (List.head?_eq_none_iff.mp hh) hne
      · exact ih4 nm hnm2 hne
    · have hstep : reconcileStep allOk d0 st m
          = (st.1, st.2.1, st.2.2 ++ [(m, b)]) := by
        simp only [reconcileStep]
        rw [hmg, hh]
        simp
      simp only [List.foldl_cons, hstep]
      obtain ⟨ih1, ih2, ⟨ext, ihext⟩, ih4⟩ := ih (st.1, st.2.1, st.2.2 ++ [(m, b)])
      refine ⟨ih1, ih2, ⟨[(m, b)] ++ ext, by rw [ihext, List.append_assoc]⟩, ?_⟩
      intro nm hnm hne
      rcases List.mem_cons.mp hnm with rfl | hnm2
      · have hbase : (dictGet (st.2.2 ++ [(nm, b)]) nm).isSome := by
          rcases hg : dictGet st.2.2 nm with _ | v
          · rw [dictGet_append_self st.2.2 nm b hg]
            rfl
          · rw [dictGet_append_of_isSome st.2.2 [(nm, b)] nm (by simp [hg]), hg]
            rfl
        rw [ihext, dictGet_append_of_isSome _ ext nm hbase]
        exact hbase
      · exact ih4 nm hnm2 hne

theorem reconcileBooks_singleton (d : Dest)
    (hnd : (d.books.map (·.name)).Nodup) :
    (reconcileBooks allOk d).1 = d
      ∧ ∀ nm ∈ d.books.map (·.name),
          (dictGet (reconcileBooks allOk d).2 nm).isSome := by
  have hle := filter_name_le_one d.books hnd
  obtain ⟨h1, h2, _, h4⟩ :=
    reconcileFold_singleton d hle (dedupFirst (d.books.map (·.name))) (d, [], [])
  constructor
  · show deleteBooks allOk _ _ = d
    rw [h1, h2]
    rfl
  · intro nm hnm
    have hmemd : nm ∈ dedupFirst (d.books.map (·.name)) :=
      (mem_dedupFirst _ nm).mpr hnm
    rcases List.mem_map.mp hnm with ⟨bk, hbk, hbknm⟩
    refine h4 nm hmemd ?_
    intro hc
    have : bk ∈ d.books.filter (fun b => b.name == nm) :=
      List.mem_filter.mpr ⟨hbk, by simpa using hbknm⟩
    rw [hc] at this
    cases this

theorem reconcilePass2_noop (d : Dest) (m : List (Nat × Nat)) (s : List Nat)
    (hnd : (d.books.map (·.name)).Nodup) :
    reconcileBooksAfterCreate allOk d m s = (d, m, s) := by
  have hle := filter_name_le_one d.books hnd
  have hfold : ∀ (ns : List String) (st : Pass2State),
      ns.foldl (reconcileStep2 allOk d) st = st := by
    intro ns
    induction ns with
    | nil => intro st; rfl
    | cons q qs ih =>
      intro st
      have hstep : reconcileStep2 allOk d st q = st := by
        unfold reconcileStep2 mergeGroup2
        rw [if_pos (hle q)]
      rw [List.foldl_cons, hstep, ih st]
  simp only [reconcileBooksAfterCreate]
  rw [hfold]
  rfl

theorem createBook_allOk (d : Dest) (nm : String) :
    createBook allOk d nm
      = (some d.nextId,
         { d with books := d.books ++ [⟨d.nextId, nm⟩],
                  nextId := d.nextId + 1, opIndex := d.opIndex + 1 }) := rfl

/-- Invariant of the book-creation fold over an arbitrary starting state:
when the starting books carry pairwise-distinct names, the cache covers
every book name, and every cache hit returns an aligned existing book, all
three properties are preserved, every processed top-level title ends up
covered, and the cache only grows. -/
theorem createBooksPhase_inv (tops : List SourceNode) :
    ∀ st : BookPhaseState,
      (st.dest.books.map (·.name)).Nodup →
      (∀ b ∈ st.dest.books, (dictGet st.cache b.name).isSome) →
      (∀ k v, dictGet st.cache k = some v → v.name = k ∧ v ∈ st.dest.books) →
      (((createBooksPhase allOk st tops).dest.books.map (·.name)).Nodup
        ∧ (∀ b ∈ (createBooksPhase allOk st tops).dest.books,
            (dictGet (createBooksPhase allOk st tops).cache b.name).isSome)
        ∧ (∀ k v, dictGet (createBooksPhase allOk st tops).cache k = some v →
            v.name = k ∧ v ∈ (createBooksPhase allOk st tops).dest.books)
        ∧ (∀ t ∈ tops,
            (dictGet (createBooksPhase allOk st tops).cache t.title).isSome)
        ∧ ∃ ext, (createBooksPhase allOk st tops).cache = st.cache ++ ext) := by
  induction tops with
  | nil =>
    intro st h1 h2 h3
    exact ⟨h1, h2, h3, by simp, ⟨[], by simp [createBooksPhase]⟩⟩
  | cons t ts ih =>
    intro st h1 h2 h3
    have hphase : createBooksPhase allOk st (t :: ts)
        = createBooksPhase allOk (createBooksStep allOk st t) ts := rfl
    rcases hdg : dictGet st.cache t.title with _ | b
    · -- create a fresh book and extend the cache
      have hstep : createBooksStep allOk st t
          = { dest := { st.dest with
                books := st.dest.books ++ [⟨st.dest.nextId, t.title⟩],
                nextId := st.dest.nextId + 1, opIndex := st.dest.opIndex + 1 },
              bookMap := dictPut st.bookMap t.id st.dest.nextId,
              cache := st.cache ++ [(t.title, ⟨st.dest.nextId, t.title⟩)],
              shelf := addIfMissing st.shelf st.dest.nextId } := by
        unfold createBooksStep
        rw [hdg]
        simp only [createBook_allOk]
        rw [dictPut_of_get_none st.cache t.title _ hdg]
      have hnotmem : ∀ bb ∈ st.dest.books, bb.name ≠ t.title := by
        intro bb hbb he
        have hsm := h2 bb hbb
        rw [he, hdg] at hsm
        cases hsm
      have hi1 : ((createBooksStep allOk st t).dest.books.map (·.name)).Nodup := by
        rw [hstep]
        show ((st.dest.books
            ++ [(⟨st.dest.nextId, t.title⟩ : Book)]).map (·.name)).Nodup
        rw [List.map_append, List.nodup_append]
        refine ⟨h1, by simp, ?_⟩
        intro x hx hx2
        simp only [List.map_cons, List.map_nil, List.mem_singleton] at hx2
        rcases List.mem_map.mp hx with ⟨bb, hbb, rfl⟩
        exact hnotmem bb hbb hx2
      have hi2 : ∀ bb ∈ (createBooksStep allOk st t).dest.books,
          (dictGet (createBooksStep allOk st t).cache bb.name).isSome := by
        rw [hstep]
        intro bb hbb
        rcases List.mem_append.mp hbb with hold | hnew
        · show (dictGet (st.cache ++ [(t.title, ⟨st.dest.nextId, t.title⟩)])
              bb.name).isSome
          rw [dictGet_append_of_isSome _ _ _ (h2 bb hold)]
          exact h2 bb hold
        · rcases List.mem_singleton.mp hnew with rfl
          show (dictGet (st.cache
              ++ [(t.title, (⟨st.dest.nextId, t.title⟩ : Book))]) t.title).isSome
          rw [dictGet_append_self st.cache t.title _ hdg]
          rfl
      have hi3 : ∀ k v, dictGet (createBooksStep allOk st t).cache k = some v →
          v.name = k ∧ v ∈ (createBooksStep allOk st t).dest.books := by
        rw [hstep]
        intro k v hkv
        rcases hold : dictGet st.cache k with _ | w
        · rw [dictGet_append_none st.cache _ k hold] at hkv
          have hm := dictGet_mem _ _ _ hkv
          have hpair : (k, v) = (t.title, (⟨st.dest.nextId, t.title⟩ : Book)) :=
            List.mem_singleton.mp hm
          have hk : k = t.title := by
            have := congrArg Prod.fst hpair
            simpa using this
          have hv : v = ⟨st.dest.nextId, t.title⟩ := by
            have := congrArg Prod.snd hpair
            simpa using this
          subst hk
          subst hv
          exact ⟨rfl, List.mem_append_right _ (List.mem_singleton_self _)⟩
        · rw [dictGet_append_of_isSome _ _ _ (by simp [hold]), hold] at hkv
          have hv : w = v := Option.some_inj.mp hkv
          obtain ⟨hn, hmem⟩ := h3 k w hold
          subst hv
          exact ⟨hn, List.mem_append_left _ hmem⟩
      obtain ⟨ih1, ih2, ih3, ih4, ext, ihext⟩ := ih _ hi1 hi2 hi3
      have hcache : (createBooksStep allOk st t).cache
          = st.cache ++ [(t.title, (⟨st.dest.nextId, t.title⟩ : Book))] := by
        rw [hstep]
      rw [hcache] at ihext
      refine ⟨by rw [hphase]; exact ih1, by rw [hphase]; exact ih2,
              by rw [hphase]; exact ih3, ?_, ?_⟩
      · intro q hq
        rcases List.mem_cons.mp hq with rfl | hq2
        · rw [hphase, ihext]
          have hbase : (dictGet (st.cache
              ++ [(q.title, (⟨st.dest.nextId, q.title⟩ : Book))]) q.title).isSome := by
            rw [dictGet_append_self st.cache q.title _ hdg]
            rfl
          rw [dictGet_append_of_isSome _ ext q.title hbase]
          exact hbase
        · rw [hphase]
          exact ih4 q hq2
      · refine ⟨[(t.title, (⟨st.dest.nextId, t.title⟩ : Book))] ++ ext, ?_⟩
        rw [hphase, ihext, List.append_assoc]
    · -- reuse: books and cache untouched
      have hstep : createBooksStep allOk st t
          = { st with bookMap := dictPut st.bookMap t.id b.id,
                      shelf := addIfMissing st.shelf b.id } := by
        unfold createBooksStep
        rw [hdg]
      have hi1 : ((createBooksStep allOk st t).dest.books.map (·.name)).Nodup := by
        rw [hstep]
        exact h1
      have hi2 : ∀ bb ∈ (createBooksStep allOk st t).dest.books,
          (dictGet (createBooksStep allOk st t).cache bb.name).isSome := by
        rw [hstep]
        exact h2
      have hi3 : ∀ k v, dictGet (createBooksStep allOk st t).cache k = some v →
          v.name = k ∧ v ∈ (createBooksStep allOk st t).dest.books := by
        rw [hstep]
        exact h3
      have hcache : (createBooksStep allOk st t).cache = st.cache := by
        rw [hstep]
      obtain ⟨ih1, ih2, ih3, ih4, ext, ihext⟩ := ih _ hi1 hi2 hi3
      rw [hcache] at ihext
      refine ⟨by rw [hphase]; exact ih1, by rw [hphase]; exact ih2,
              by rw [hphase]; exact ih3, ?_, ?_⟩
      · intro q hq
        rcases List.mem_cons.mp hq with rfl | hq2
        · rw [hphase, ihext,
              dictGet_append_of_isSome _ ext q.title (by simp [hdg])]
          simp [hdg]
        · rw [hphase]
          exact ih4 q hq2
      · exact ⟨ext, by rw [hphase]; exact ihext⟩

theorem createBooksPhase_noop (tops : List SourceNode) :
    ∀ st : BookPhaseState,
      (∀ t ∈ tops, (dictGet st.cache t.title).isSome) →
      (createBooksPhase allOk st tops).dest = st.dest
        ∧ (createBooksPhase allOk st tops).cache = st.cache := by
  induction tops with
  | nil => intro st _; exact ⟨rfl, rfl⟩
  | cons t ts ih =>
    intro st hall
    rcases hdg : dictGet st.cache t.title with _ | b
    · exact absurd (hall t (List.mem_cons_self t ts)) (by simp [hdg])
    · have hstep : createBooksStep allOk st t
          = { st with bookMap := dictPut st.bookMap t.id b.id,
                      shelf := addIfMissing st.shelf b.id } := by
        unfold createBooksStep
        rw [hdg]
      have hcb : createBooksPhase allOk st (t :: ts)
          = createBooksPhase allOk (createBooksStep allOk st t) ts := rfl
      rw [hcb, hstep]
      exact ih _ (fun q hq => hall q (List.mem_cons_of_mem t hq))

theorem createChapter_books (ok : Nat → Bool) (d : Dest) (n de : String) (t : Nat) :
    ((createChapter ok d n de t).2).books = d.books := by
  unfold createChapter
  split <;> rfl

theorem createPage_books (ok : Nat → Bool) (d : Dest) (n h : String) (t : Nat)
    (c : Option Nat) : ((createPage ok d n h t c).2).books = d.books := by
  unfold createPage
  split <;> rfl

theorem processNodeCore_books (ok : Nat → Bool) (bs : Bool)
    (tr : String → Option String) (ap : List SourceNode) (ci : List Nat)
    (bm : List (Nat × Nat)) (st : LoopState) (p : SourceNode) :
    (processNodeCore ok bs tr ap ci bm st p).dest.books = st.dest.books := by
  unfold processNodeCore
  rcases hbm : dictGet bm p.id with _ | b
  · rfl
  · simp only
    by_cases hch : natMem ci p.id = true
    · simp only [hch, if_true]
      rcases hrc : (createChapter ok st.dest
          (chapterNameFor ap st.existingChapters p) "" b).1 with _ | cid
      · simp only [hrc]
        exact createChapter_books ok st.dest _ "" b
      · simp only [hrc]
        rcases hri : (createPage ok (createChapter ok st.dest
            (chapterNameFor ap st.existingChapters p) "" b).2 "Introduction"
            (htmlContentFor bs tr p) b (some cid)).1 with _ | ipid
        · simp only [hri]
          rw [createPage_books, createChapter_books]
        · simp only [hri]
          rw [updatePageChapter_books, createPage_books, createChapter_books]
    · simp only [hch, Bool.false_eq_true, if_false]
      rcases hrp : (createPage ok st.dest p.title (htmlContentFor bs tr p) b
          (findParentChapter st.chapterMap p.ancestors.reverse)).1 with _ | pgid
      · simp only [hrp]
        exact createPage_books ok st.dest _ _ b _
      · simp only [hrp]
        rcases hpc : findParentChapter st.chapterMap p.ancestors.reverse with _ | c
        · simp only [hpc]
          exact createPage_books ok st.dest _ _ b _
        · simp only [hpc]
          rw [updatePageChapter_books, createPage_books]

theorem processNode_books (ok : Nat → Bool) (bs : Bool)
    (tr : String → Option String) (se : Bool) (ap : List SourceNode)
    (ci : List Nat) (bm : List (Nat × Nat)) (st : LoopState) (p : SourceNode) :
    (processNode ok bs tr se ap ci bm st p).dest.books = st.dest.books := by
  unfold processNode
  rcases h0 : dictGet st.existingPages p.title with _ | epid
  · exact processNodeCore_books ok bs tr ap ci bm st p
  · by_cases hse : se = true
    · simp [hse]
    · simp only [Bool.not_eq_true] at hse
      simp only [hse, Bool.false_eq_true, if_false]
      exact processNodeCore_books ok bs tr ap ci bm st p

theorem foldProcess_books (ok : Nat → Bool) (bs : Bool)
    (tr : String → Option String) (se : Bool) (ap : List SourceNode)
    (ci : List Nat) (bm : List (Nat × Nat)) (nodes : List SourceNode) :
    ∀ st, (nodes.foldl (processNode ok bs tr se ap ci bm) st).dest.books
      = st.dest.books := by
  induction nodes with
  | nil => intro st; rfl
  | cons q qs ih =>
    intro st
    rw [List.foldl_cons, ih, processNode_books]

/-- The sync's final book list is the book pipeline's: the processing loop
creates only chapters and pages. -/
theorem runSync_dest_books (ok : Nat → Bool) (bs : Bool)
    (tr : String → Option String) (se : Bool) (src : List SourceNode)
    (d0 : Dest) :
    (runSync ok bs tr se src d0).dest.books = (bookPipeline ok src d0).books := by
  simp only [runSync, bookPipeline]
  rw [foldProcess_books]

/-- **C1 (amended).** For every source data set and every well-formed
starting destination (pairwise-distinct book ids), with skip-existing set
and all writes succeeding, running the full sync twice with identical
source data creates zero new destination Books on the second run: the book
list is unchanged.  (The other two parts of the claim fail in general —
see the counterexample: container nodes are re-processed into renamed
Chapters plus fresh Introduction pages, so the second run is not
entity-free, and a Leaf whose book cannot be resolved is counted as an
error rather than skipped — but the Book level is stable.) -/
theorem claim_C1_idempotence (bs : Bool) (tr : String → Option String)
    (src : List SourceNode) (d0 : Dest)
    (hids : (d0.books.map (·.id)).Nodup) :
    (runSync allOk bs tr true src
        (runSync allOk bs tr true src d0).dest).dest.books
      = (runSync allOk bs tr true src d0).dest.books := by
  set tops := topLevelPages (addPhantoms src) with htops
  -- run 1: pass 1 leaves distinctly-named books with a sound covering cache
  set st0 : BookPhaseState
    := ⟨(reconcileBooks allOk d0).1, (reconcileBooks allOk d0).2,
        ensureKeptInShelf (reconcileBooks allOk d0).2
          (reconcileBooks allOk d0).1.shelf, []⟩ with hst0
  have h1 : (st0.dest.books.map (·.name)).Nodup :=
    reconcileBooks_names_nodup d0 hids
  have h2 : ∀ b ∈ st0.dest.books, (dictGet st0.cache b.name).isSome :=
    reconcileBooks_covers d0 hids
  have h3 : ∀ k v, dictGet st0.cache k = some v →
      v.name = k ∧ v ∈ st0.dest.books :=
    fun k v h => reconcileBooks_cache_sound d0 hids k v h
  obtain ⟨i1, i2, i3, i4, _⟩ := createBooksPhase_inv tops st0 h1 h2 h3
  set bp := createBooksPhase allOk st0 tops with hbp
  have hpass2 := reconcilePass2_noop bp.dest bp.bookMap bp.shelf i1
  have hB : bookPipeline allOk src d0 = bp.dest := by
    simp only [bookPipeline]
    rw [← htops, ← hst0, ← hbp, hpass2]
  have hmemnames : ∀ t ∈ tops, t.title ∈ bp.dest.books.map (·.name) := by
    intro t ht
    have hsome := i4 t ht
    rcases hg : dictGet bp.cache t.title with _ | b
    · rw [hg] at hsome
      cases hsome
    · obtain ⟨hn, hmem⟩ := i3 t.title b hg
      exact List.mem_map.mpr ⟨b, hmem, hn⟩
  set d1 := (runSync allOk bs tr true src d0).dest with hd1
  have hd1books : d1.books = bp.dest.books := by
    rw [hd1, runSync_dest_books, hB]
  have hnd1 : (d1.books.map (·.name)).Nodup := by
    rw [hd1books]
    exact i1
  obtain ⟨hs1, hs2⟩ := reconcileBooks_singleton d1 hnd1
  set st1 : BookPhaseState
    := ⟨(reconcileBooks allOk d1).1, (reconcileBooks allOk d1).2,
        ensureKeptInShelf (reconcileBooks allOk d1).2
          (reconcileBooks allOk d1).1.shelf, []⟩ with hst1
  have hall : ∀ t ∈ tops, (dictGet st1.cache t.title).isSome := by
    intro t ht
    show (dictGet (reconcileBooks allOk d1).2 t.title).isSome
    apply hs2
    rw [hd1books]
    exact hmemnames t ht
  obtain ⟨hnoop1, _⟩ := createBooksPhase_noop tops st1 hall
  set bp2 := createBooksPhase allOk st1 tops with hbp2
  have hbp2dest : bp2.dest = d1 := by
    rw [hnoop1]
    show (reconcileBooks allOk d1).1 = d1
    exact hs1
  have hnd2 : (bp2.dest.books.map (·.name)).Nodup := by
    rw [hbp2dest]
    exact hnd1
  have hpass2b := reconcilePass2_noop bp2.dest bp2.bookMap bp2.shelf hnd2
  have hB2 : bookPipeline allOk src d1 = bp2.dest := by
    simp only [bookPipeline]
    rw [← htops, ← hst1, ← hbp2, hpass2b]
  rw [runSync_dest_books, hB2, hbp2dest]

/-- Witness for the amended C1 on the two-node source `A ← B` and a
non-empty starting workspace holding duplicate-named books (ids 1, 2, 3):
the second run's book list equals the first run's. -/
theorem claim_C1_idempotence_witness :
    ((dupWorkspace.books.map (·.id)).Nodup)
      ∧ (runSync allOk true (fun _ => none) true c1Src
            (runSync allOk true (fun _ => none) true c1Src
              dupWorkspace).dest).dest.books
          = (runSync allOk true (fun _ => none) true c1Src
              dupWorkspace).dest.books :=
  ⟨by decide,
   claim_C1_idempotence true (fun _ => none) c1Src dupWorkspace (by decide)⟩

/-- **C8 counterexample.** `proseInput` contains no recognized code-block
macro — both detection substrings occur only as prose, there is no
`ac:structured-macro` element — yet byte-for-byte passthrough fails: the
substring gate admits the input to the BeautifulSoup parse path (both
markers present), parsing succeeds, and `str(soup)` re-serializes the bare
`&` as `&amp;`, so the function returns an altered string. -/
theorem claim_C8_transcoder_passthrough_counterexample :
    convertConfluenceMacrosToHtml true soupAmpTransform proseInput ≠ proseInput
      ∧ strIn codeMacroMarker proseInput = true
      ∧ strIn codeMacroName proseInput = true
      ∧ convertConfluenceMacrosToHtml true soupAmpTransform proseInput
          = proseOutput := by decide
